import Mathlib

/-!
# Verification of the godot-package-manager CLI core

A shallow embedding, in Lean 4, of the parts of the `godot-package-manager/cli`
Rust sources that the specification's claims are about:

* `src/archive.rs` — `skip_toplevel` and the destination-path computation of
  `unpack_tarchive` / `unpack_zarchive` (claim C1);
* `src/package.rs` — `Package::download` (claim C2), the load-path rewriters
  `modify_script_loads` / `modify_tres_loads` / `modify_load` / `dep_map`
  (claims C4, C5, C9), `new_no_version` / `get_manifest` response handling
  (claim C7);
* `src/cache.rs` — `VersionsCache::find_version` (claim C3);
* `src/config_file.rs` — `ConfigFile::lock` (claim C6);
* `src/main.rs` — `recursive_delete_empty` and `purge` (claim C8);
* `src/package/parsing.rs` — `ParsedPackage::from_str` (claim C10).

Rust `Path` values are modelled as strings over the Unix path grammar, or as
lists of parsed components where the source manipulates components.  Machine
side effects (filesystem existence tests, directory trees, HTTP bodies) are
modelled as explicit parameters and explicit finite trees.  Functions that can
panic in Rust are modelled with `Option`/`Except`, `none` standing for the
panic.
-/

namespace Gpm

/-! ## Paths

Rust's `std::path` on Unix parses a path string into components: an optional
root (`/`), and the `/`-separated non-empty segments, where `.` segments are
dropped except for a leading one (which parses as `CurDir`) and `..` parses
as `ParentDir`.  `Component::Normal` holds everything else. -/

/-- A parsed path component, mirroring `std::path::Component` on Unix
(`Prefix` components exist only on Windows and cannot be produced by the
Unix parser; they are included so that the `skip_toplevel` filter can be
stated over the full component alphabet). -/
inductive PComp where
  | rootDir : PComp
  | curDir : PComp
  | parentDir : PComp
  | winPrefix : PComp
  | normal : List Char → PComp
deriving DecidableEq, Repr

/-- `matches!(c, Normal(_))`, the filter used by `skip_toplevel`. -/
def PComp.isNormal : PComp → Bool
  | .normal _ => true
  | _ => false

/-- Split a character list on `'/'` (the Unix path separator). -/
def splitSlash : List Char → List (List Char)
  | [] => [[]]
  | c :: rest =>
    if c = '/' then [] :: splitSlash rest
    else
      match splitSlash rest with
      | s :: ss => (c :: s) :: ss
      | [] => [[c]]

/-- The `/`-separated segments of a path that survive component parsing:
empty segments (from repeated or trailing separators) and non-leading `.`
segments are dropped. -/
def pathSegs (cs : List Char) : List (List Char) :=
  (splitSlash cs).filter (fun s => s ≠ [] ∧ s ≠ ['.'])

/-- `Path::components()` for a Unix path given as a character list. -/
def componentsOf (cs : List Char) : List PComp :=
  let root : Bool := match cs with | '/' :: _ => true | _ => false
  let cur : Bool := !root && (cs = ['.'] || (cs.take 2 = ['.', '/']))
  ((if root then [PComp.rootDir] else []) ++ (if cur then [PComp.curDir] else []))
    ++ (pathSegs cs).map (fun s => if s = ['.', '.'] then PComp.parentDir else PComp.normal s)

/-- `Path::components()` of a Rust `&str` path. -/
def pathComponents (s : String) : List PComp := componentsOf s.data

/-- `src/archive.rs::skip_toplevel`:
`p.components().skip(1).filter(|c| matches!(c, Normal(_))).collect()`.
The same expression is inlined in `src/package.rs::download::unpack`. -/
def skip_toplevel (cs : List PComp) : List PComp :=
  (cs.drop 1).filter (fun c => c.isNormal)

/-- One step of path resolution: how the filesystem interprets one component
appended to an absolute directory (given as the list of its names from the
filesystem root).  `rootDir`/`winPrefix` restart from the root, `parentDir`
pops one name, `curDir` is a no-op, and a normal name descends. -/
def resolveStep (base : List (List Char)) : PComp → List (List Char)
  | .rootDir => []
  | .winPrefix => []
  | .curDir => base
  | .parentDir => base.dropLast
  | .normal n => base ++ [n]

/-- Resolve a component list against an absolute base directory. -/
def resolvePath (base : List (List Char)) (cs : List PComp) : List (List Char) :=
  cs.foldl resolveStep base

/-- Names of the normal components of a component list. -/
def normalNames (cs : List PComp) : List (List Char) :=
  cs.filterMap (fun c => match c with | .normal n => some n | _ => none)

/-! ## Version selection (`src/cache.rs`, claim C3)

`VersionsCache::find_version` folds over the `(Version, CacheEntry)` pairs
produced by `iter_versions`, keeping the greatest version that satisfies the
range.  The semver `Version` type of the `semver_rs` crate is totally
ordered; the selection logic is oblivious to the representation, so it is
embedded generically over a `LinearOrder`.  A range `v` is consumed only
through `v.test(&version)`, so it is embedded as a boolean predicate. -/

/-- The loop body of `find_version`: `newest` is `Option (entry, version)`;
a pair passing the range test replaces `newest` unless its version compares
`Less` than the version held there. -/
def find_version_step {V E : Type} [LinearOrder V] (test : V → Bool)
    (newest : Option (E × V)) (p : V × E) : Option (E × V) :=
  if test p.1 then
    match newest with
    | some (e0, v0) =>
      if compare p.1 v0 = Ordering.lt then some (e0, v0) else some (p.2, p.1)
    | none => some (p.2, p.1)
  else newest

/-- `src/cache.rs::VersionsCache::find_version`, with the version map's
`iter_versions()` view supplied as an explicit `(version, entry)` list.  The
source returns only the entry of the winning pair (`Some(e)`). -/
def find_version {V E : Type} [LinearOrder V]
    (entries : List (V × E)) (test : V → Bool) : Option E :=
  (entries.foldl (find_version_step test) none).map Prod.fst

/-! ## Package-string parsing (`src/package/parsing.rs`, claim C10)

`ParsedPackage::from_str` accepts `name`, `name:ver`, `name=ver`, `name@ver`
and `@scope/name@ver`.  The same parser (modulo the representation of the
missing-version case) appears in `src/package.rs`.  The Rust code indexes
`s.as_bytes()[0]` without guarding for emptiness; the embedding returns
`none` exactly where the Rust code panics. -/

namespace Parsing

inductive VersionType where
  | normal : String → VersionType
  | latest : VersionType
deriving DecidableEq, Repr

structure ParsedPackage where
  name : String
  version : VersionType
deriving DecidableEq, Repr

/-- `str::split_once`: split at the first occurrence of `d`, returning the
text before and after it. -/
def splitOnceList (cs : List Char) (d : Char) : Option (List Char × List Char) :=
  match cs with
  | [] => none
  | c :: rest =>
    if c = d then some ([], rest)
    else (splitOnceList rest d).map (fun p => (c :: p.1, p.2))

def splitOnce (s : String) (d : Char) : Option (String × String) :=
  (splitOnceList s.data d).map (fun p => (⟨p.1⟩, ⟨p.2⟩))

/-- `not_too_long`: `s.len() < 214` (Rust `len` is the UTF-8 byte length). -/
def not_too_long (s : String) : Bool := s.utf8ByteSize < 214

/-- The characters rejected by `safe`. -/
def forbiddenChars : List Char :=
  [' ', '<', '>', '[', ']', '\x7b', '\x7d', '|', '\\', '^', '%', ':', '=']

/-- `safe`: `s.find(&[...]) .is_none()`. -/
def safe (s : String) : Bool := s.data.all (fun c => !forbiddenChars.contains c)

/-- `check`: valid names pass, others produce the `Invalid package name`
error. -/
def check (s : String) : Except String Unit :=
  if not_too_long s && safe s then Except.ok () else Except.error "Invalid package name"

/-- `split_p(s, d)`. -/
def split_p (s : String) (d : Char) : Except String ParsedPackage :=
  match splitOnce s d with
  | none => do
    let _ ← check s
    return ⟨s, VersionType.latest⟩
  | some (p, v) => do
    let _ ← check p
    return ⟨p, VersionType.normal v⟩

/-- `ParsedPackage::from_str`.  `none` models the panic of
`s.as_bytes()[0]` on the empty string; every other input is handled by
total code and yields `some` of the parse result. -/
def from_str (s : String) : Option (Except String ParsedPackage) :=
  if ':' ∈ s.data then some (split_p s ':')
  else if '=' ∈ s.data then some (split_p s '=')
  else
    match s.data with
    | [] => none
    | c :: rest =>
      if c = '@' then
        match splitOnceList rest '@' with
        | none => some (do
            let _ ← check s
            return ⟨s, VersionType.latest⟩)
        | some (p, v) => some (do
            let _ ← check ("@" ++ (⟨p⟩ : String))
            return ⟨"@" ++ (⟨p⟩ : String), VersionType.normal ⟨v⟩⟩)
      else some (split_p s '@')

end Parsing

/-! ## Registry responses (`src/package.rs`, claim C7)

`Package::new_no_version` and `Package::get_manifest` fetch
`{REGISTRY}/{name}` resp. `{REGISTRY}/{name}/{version}` and inspect the
response body before any JSON parsing.  The parsing applied to a body that
passes the checks is abstracted as a function argument. -/

/-- The body-handling of `Package::new_no_version`: a body equal to the
literal `"Not Found"` (the 11 raw bytes, a JSON-encoded string) yields the
`Package {name} was not found` error; any other body is handed to the
metadata parse. -/
def new_no_version_resp {α : Type} (name resp : String)
    (parse : String → Except String α) : Except String α :=
  if resp = "\"Not Found\"" then
    Except.error ("Package " ++ name ++ " was not found")
  else parse resp

/-- The body-handling of `Package::get_manifest` (on the path where no
manifest is cached on the package): `"Not Found"` and
`"version not found: {version}"` bodies map to errors naming the package;
other bodies are handed to the manifest parse. -/
def get_manifest_resp {α : Type} (name version resp : String)
    (parse : String → Except String α) : Except String α :=
  if resp = "\"Not Found\"" then
    Except.error ("Package " ++ name ++ "@" ++ version ++ " was not found")
  else if resp = "\"version not found: " ++ version ++ "\"" then
    Except.error ("Package " ++ name ++ " exists, but version '" ++ version ++ "' not found")
  else parse resp

/-! ## Download and checksum verification (`src/package.rs::download`, claim C2)

`Package::download` runs: `self.purge()` (remove the download directory if
present), fetch the tarball bytes, compare the SHA-1 hex digest of the bytes
with the manifest's `shasum` (an `assert_eq!` that panics on mismatch), and
only then `unpack` into the download directory.  The state of the one
download directory is `none` (absent) or `some files`; the SHA-1 function
lives in the external `sha1` crate and is abstracted as a parameter. -/

/-- Events performed by `download`, in order. -/
inductive DlEvent where
  | purge : DlEvent
  | fetch : DlEvent
  | verify : DlEvent
  | extract : DlEvent
deriving DecidableEq, Repr

/-- `Package::purge`: `if self.is_installed() { remove_dir_all(dir) }` — in
either case the download directory is absent afterwards. -/
def package_purge (_dst : Option (List String)) : Option (List String) := none

/-- `Package::download`, returning the final state of the download
directory, the panic message if any, and the trace of performed events.
`hexSha1` abstracts `format!("{:x}", Sha1::digest(bytes))`; `tarEntries`
abstracts the files that `unpack` would materialize from the bytes. -/
def package_download (hexSha1 : List Nat → String) (shasum : String)
    (bytes : List Nat) (tarEntries : List String) (dst : Option (List String)) :
    Option (List String) × Option String × List DlEvent :=
  let dst1 := package_purge dst
  if hexSha1 bytes = shasum then
    (some tarEntries, none, [DlEvent.purge, DlEvent.fetch, DlEvent.verify, DlEvent.extract])
  else
    (dst1, some "Tarball did not match checksum!",
      [DlEvent.purge, DlEvent.fetch, DlEvent.verify])

/-! ## Directory trees, purge, and empty-directory deletion
(`src/main.rs`, claim C8)

A directory is a finite tree of named files and named subdirectories.
`recursive_delete_empty` visits a directory top-down: a directory with no
entries at all is removed (`remove_dir`); otherwise its subdirectories are
visited recursively and the directory itself is not re-checked — hence the
source runs the sweep three times.  `purge` first runs `Package::purge`
(`remove_dir_all` of the download directory) for every installed configured
package, then the three sweeps over `addons/`. -/

mutual
inductive FsTree where
  | node (files : List String) (subdirs : FsForest)
inductive FsForest where
  | nil
  | cons (name : String) (tree : FsTree) (rest : FsForest)
end

/-- Build a forest from an association list of named subtrees. -/
def FsForest.ofList : List (String × FsTree) → FsForest
  | [] => .nil
  | (n, t) :: rest => .cons n t (FsForest.ofList rest)

def FsForest.isNil : FsForest → Bool
  | .nil => true
  | .cons _ _ _ => false

mutual
/-- One invocation of `recursive_delete_empty` on a directory: `none` means
the directory was removed (`remove_dir` when `read_dir` is empty); otherwise
subdirectories are swept recursively, files are untouched, and the directory
itself is not re-checked. -/
def recursive_delete_empty : FsTree → Option FsTree
  | .node fs ds =>
    if fs.isEmpty && ds.isNil then none
    else some (.node fs (rdeForest ds))
/-- `recursive_delete_empty` applied to each subdirectory of a directory,
dropping the ones it removes. -/
def rdeForest : FsForest → FsForest
  | .nil => .nil
  | .cons n t rest =>
    match recursive_delete_empty t with
    | none => rdeForest rest
    | some u => .cons n u (rdeForest rest)
end

/-- `for _ in 0..3 { recursive_delete_empty(...) }`, generalized to `n`
sweeps; once the directory is gone the remaining sweeps fail with a printed
(ignored) error. -/
def sweeps : Nat → FsTree → Option FsTree
  | 0, t => some t
  | n + 1, t => (recursive_delete_empty t).bind (sweeps n)

mutual
/-- No file exists anywhere in the tree. -/
def FsTree.noFiles : FsTree → Bool
  | .node fs ds => fs.isEmpty && FsForest.noFilesF ds
def FsForest.noFilesF : FsForest → Bool
  | .nil => true
  | .cons _ t rest => t.noFiles && FsForest.noFilesF rest
end

mutual
/-- Height of the tree: the number of top-down sweeps needed to delete it
when it is transitively empty. -/
def FsTree.height : FsTree → Nat
  | .node _ ds => 1 + FsForest.heightF ds
def FsForest.heightF : FsForest → Nat
  | .nil => 0
  | .cons _ t rest => max t.height (FsForest.heightF rest)
end

mutual
/-- `std::fs::remove_dir_all` at a path below the tree root (a no-op when
the path does not exist, matching the `is_installed` guard in
`Package::purge`). -/
def remove_dir_all_at : FsTree → List String → FsTree
  | t, [] => t
  | .node fs ds, x :: xs => .node fs (removeForest ds x xs)
/-- Helper of `remove_dir_all_at`: walk the forest for the name `x`; with no
remaining components the matching subdirectory is removed wholesale,
otherwise the removal descends into it. -/
def removeForest : FsForest → String → List String → FsForest
  | .nil, _, _ => .nil
  | .cons n t rest, x, xs =>
    if n = x then
      match xs with
      | [] => removeForest rest x xs
      | y :: ys => .cons n (remove_dir_all_at t (y :: ys)) (removeForest rest x xs)
    else .cons n t (removeForest rest x xs)
end

mutual
/-- Does a directory exist at the given path below the root? -/
def dirExistsAt : FsTree → List String → Bool
  | _, [] => true
  | .node _ ds, x :: xs => existsForest ds x xs
def existsForest : FsForest → String → List String → Bool
  | .nil, _, _ => false
  | .cons n t rest, x, xs => (n = x && dirExistsAt t xs) || existsForest rest x xs
end

/-- Pointwise view of iterated sweeps on a forest: each subdirectory is
swept `n` times on its own, and the ones that get removed along the way are
dropped. -/
def sweepForest (n : Nat) : FsForest → FsForest
  | .nil => .nil
  | .cons nm t rest =>
    match sweeps n t with
    | none => sweepForest n rest
    | some u => .cons nm u (sweepForest n rest)

/-- The identity of a configured package, as far as its install location is
concerned. -/
structure PkgId where
  name : String
  version : String
  indirect : Bool
deriving DecidableEq, Repr

/-- The `/`-separated pieces of a package name (`@bendn/test` installs under
`addons/@bendn/test`). -/
def nameComps (name : String) : List String :=
  ((splitSlash name.data).filter (fun s => s ≠ [])).map (fun s => (⟨s⟩ : String))

/-- `Package::download_dir` (relative to the project root, without the
leading `./`): `addons/{name}` for direct packages,
`addons/__gpm_deps/{name}/{version}` for indirect ones. -/
def PkgId.download_dir : PkgId → List String
  | ⟨name, version, indirect⟩ =>
    if indirect then "addons" :: "__gpm_deps" :: (nameComps name ++ [version])
    else "addons" :: nameComps name

/-- The per-package phase of `main.rs::purge`: `Package::purge` for every
collected installed package. -/
def purgeAll (t : FsTree) (pkgs : List PkgId) : FsTree :=
  pkgs.foldl (fun t p => remove_dir_all_at t p.download_dir) t

/-- The `addons/` layout of end-to-end scenario 1 (a project with
`@bendn/test@2.0.10` installed directly and `@bendn/gdcli@1.2.5` installed
indirectly), used by the C8 witness. -/
def scenarioTree : FsTree :=
  .node []
    (.cons "addons"
      (.node []
        (.cons "@bendn"
          (.node [] (.cons "test" (.node ["main.gd", "package.json"] .nil) .nil))
          (.cons "__gpm_deps"
            (.node []
              (.cons "@bendn"
                (.node []
                  (.cons "gdcli"
                    (.node []
                      (.cons "1.2.5" (.node ["Parser.gd"] .nil) .nil))
                    .nil))
                .nil))
            .nil)))
      .nil)

/-- The configured packages of scenario 1. -/
def scenarioPkgs : List PkgId :=
  [⟨"@bendn/test", "2.0.10", false⟩, ⟨"@bendn/gdcli", "1.2.5", true⟩]

/-! ## Load-path rewriting (`src/package.rs`, claims C4, C5, C9)

`modify_script_loads` applies the regex `(pre)?load\\(["']([^)]+)['"]\\)` to a
GDScript text and `modify_tres_loads` applies `\\[ext_resource path="([^"]+)"`
to a text resource; each matched path is transformed by `modify_load`.
Captured paths are parsed into components (`componentsOf`); the filesystem
existence test behind `Path::exists` is an explicit parameter.  The regex
scan is embedded as a character-level scanner with the exact
leftmost-match/greedy-capture semantics of the Rust regex crate for these
two patterns: at each position, try the literal pattern head; on success the
capture is the run of admissible characters up to the closing delimiter. -/

/-- The character class `["']`. -/
def isQuote (c : Char) : Bool := c = '"' || c = '\''

/-- The `res:` component — `Path::new("res://").components()` is exactly
`[Normal("res:")]`, which is what `strip_prefix("res://")` matches. -/
def resComp : PComp := PComp.normal ['r', 'e', 's', ':']

/-- `Path::strip_prefix("res://")` on a parsed path: succeeds exactly when
the first component is `res:`, returning the remaining components. -/
def stripResComps : List PComp → Option (List PComp)
  | c :: rest => if c = resComp then some rest else none
  | [] => none

/-- `Component::as_os_str()`, the string form used as the dependency-map
key. -/
def PComp.osStr : PComp → String
  | .normal n => ⟨n⟩
  | .curDir => "."
  | .parentDir => ".."
  | .rootDir => "/"
  | .winPrefix => ""

/-- `Path::join`: an absolute right operand replaces the left one. -/
def pathJoin (a b : List PComp) : List PComp :=
  match b with
  | .rootDir :: _ => b
  | _ => a ++ b

/-- Render a component list back to text, as `Path::display` does for the
`PathBuf`s built by `modify_load` (components joined by `/`). -/
def renderComps : List PComp → List Char
  | [] => []
  | [c] => c.osStr.data
  | c :: c2 :: rest => c.osStr.data ++ '/' :: renderComps (c2 :: rest)

/-- `src/package.rs::Package::modify_load` (the `&self` receiver is unused
except for the warning printer).  `fsEx` answers `Path::exists`. -/
def modify_load (fsEx : List PComp → Bool) (path cwd : List PComp)
    (dep_map : List (String × String)) : List PComp :=
  if fsEx path || fsEx (pathJoin cwd path) then path
  else
    match path.get? 1 with
    | some c =>
      match List.lookup c.osStr dep_map with
      | some addon_dir => componentsOf addon_dir.data ++ path.drop 2
      | none => path
    | none => path

/-- `Package::download_dir` as a string (old-layout source), including the
leading `./`. -/
def download_dir_str (p : PkgId) : String :=
  if p.indirect then "./addons/__gpm_deps/" ++ p.name ++ "/" ++ p.version
  else "./addons/" ++ p.name

/-- One `add` step of `Package::dep_map`: insert the full name, then (for
scoped names) the unscoped alias.  The association list is consulted
front-to-back, so later inserts are modelled by prepending. -/
def dep_map_add (p : PkgId) (m : List (String × String)) : List (String × String) :=
  let d : String := ⟨(download_dir_str p).data.drop 2⟩
  let m1 := (p.name, d) :: m
  match Parsing.splitOnce p.name '/' with
  | some (_, s) => (s, d) :: m1
  | none => m1

/-- `Package::dep_map`: the dependencies are added in order, then the
package itself (whose entries therefore win alias collisions). -/
def dep_map (self : PkgId) (deps : List PkgId) : List (String × String) :=
  dep_map_add self (deps.foldl (fun m p => dep_map_add p m) [])

/-- The `(pre)?load\\(` pattern head: the literal characters that must match
at the current position. -/
def patChars (pre : Bool) : List Char :=
  if pre then ['p', 'r', 'e', 'l', 'o', 'a', 'd', '(']
  else ['l', 'o', 'a', 'd', '(']

/-- After the pattern head: `["']` then the greedy `([^)]+)` capture, which
must be followed by `['"]\\)`.  Since the capture cannot cross a `)`, the
match succeeds exactly when the run of non-`)` characters after the opening
quote ends (at the first `)`) with a quote and has a non-empty body before
that quote. -/
def loadBody (cs : List Char) : Option (List Char × List Char) :=
  match cs with
  | [] => none
  | q1 :: rest =>
    let run := rest.takeWhile (fun c => c ≠ ')')
    let after := rest.dropWhile (fun c => c ≠ ')')
    if isQuote q1 && decide (2 ≤ run.length) && isQuote (run.getLastD ' ') && !after.isEmpty
    then some (run.dropLast, after.tail)
    else none

/-- One attempt of the script-load regex at the current position:
`(pre)?load\\(...` with the `pre` alternative preferred, as the regex engine
does.  Returns the `pre` flag, the captured path text and the text after
the match. -/
def tryLoadAt (cs : List Char) : Option (Bool × List Char × List Char) :=
  if (patChars true).isPrefixOf cs then
    (loadBody (cs.drop 8)).map (fun p => (true, p.1, p.2))
  else if (patChars false).isPrefixOf cs then
    (loadBody (cs.drop 5)).map (fun p => (false, p.1, p.2))
  else none

/-- The replacement the `modify_script_loads` closure emits for a captured
path `cap`: strip `res://`, run `modify_load`, re-emit with single quotes —
with the original text when the load already resolves (`res == p` compares
the `modify_load` result against the unstripped path). -/
def scriptReplacement (fsEx : List PComp → Bool) (cwd : List PComp)
    (dm : List (String × String)) (pre : Bool) (cap : List Char) : List Char :=
  let p := componentsOf cap
  let stripped := match stripResComps p with | some r => r | none => p
  let res := modify_load fsEx stripped cwd dm
  (if pre then ['p', 'r', 'e'] else []) ++
  (if res = p then ['l', 'o', 'a', 'd', '(', '\''] ++ cap ++ ['\'', ')']
   else ['l', 'o', 'a', 'd', '(', '\'', 'r', 'e', 's', ':', '/', '/']
     ++ renderComps res ++ ['\'', ')'])

/-- `Regex::replace_all` for the script-load pattern: leftmost match,
replace, continue after the match.  The fuel argument dominates the number
of positions visited; `modify_script_loads` supplies the text length, which
always suffices because every step consumes at least one character. -/
def rwScript (fsEx : List PComp → Bool) (cwd : List PComp)
    (dm : List (String × String)) : Nat → List Char → List Char
  | 0, cs => cs
  | _ + 1, [] => []
  | fuel + 1, c :: cs =>
    match tryLoadAt (c :: cs) with
    | some (pre, cap, rest) =>
      scriptReplacement fsEx cwd dm pre cap ++ rwScript fsEx cwd dm fuel rest
    | none => c :: rwScript fsEx cwd dm fuel cs

/-- The script rewrite of a whole character list (fuel = length, which
always suffices). -/
def rwFull (fsEx : List PComp → Bool) (cwd : List PComp)
    (dm : List (String × String)) (cs : List Char) : List Char :=
  rwScript fsEx cwd dm cs.length cs

/-- `Package::modify_script_loads`. -/
def modify_script_loads (fsEx : List PComp → Bool) (cwd : List PComp)
    (dm : List (String × String)) (t : String) : String :=
  ⟨rwFull fsEx cwd dm t.data⟩

/-- The capture `modify_script_loads` re-emits for a captured path `cap`
(the text between the new single quotes): `cap` itself when `modify_load`
returns the path unchanged, else `res://` followed by the rendered
result. -/
def newCap (fsEx : List PComp → Bool) (cwd : List PComp)
    (dm : List (String × String)) (cap : List Char) : List Char :=
  let p := componentsOf cap
  let stripped := match stripResComps p with | some r => r | none => p
  let res := modify_load fsEx stripped cwd dm
  if res = p then cap else ['r', 'e', 's', ':', '/', '/'] ++ renderComps res

/-- The literal pattern head `\\[ext_resource path="` of the text-resource
regex (20 characters, ending with the opening quote). -/
def tresPat : List Char :=
  ['[', 'e', 'x', 't', '_', 'r', 'e', 's', 'o', 'u', 'r', 'c', 'e', ' ',
   'p', 'a', 't', 'h', '=', '"']

/-- Greedy `([^"]+)` capture followed by `"`. -/
def tresBody (cs : List Char) : Option (List Char × List Char) :=
  match cs.dropWhile (fun c => c ≠ '"') with
  | '"' :: tail =>
    if (cs.takeWhile (fun c => c ≠ '"')).isEmpty then none
    else some (cs.takeWhile (fun c => c ≠ '"'), tail)
  | _ => none

/-- One attempt of the text-resource regex at the current position. -/
def tryTresAt (cs : List Char) : Option (List Char × List Char) :=
  if tresPat.isPrefixOf cs then tresBody (cs.drop 20) else none

/-- The replacement the `modify_tres_loads` closure emits for a captured
path, or `none` for the panic of
`strip_prefix("res://").expect("TextResource path should be absolute")`. -/
def tresReplacement (fsEx : List PComp → Bool) (cwd : List PComp)
    (dm : List (String × String)) (cap : List Char) : Option (List Char) :=
  let p := componentsOf cap
  match stripResComps p with
  | none => none
  | some stripped =>
    let res := modify_load fsEx stripped cwd dm
    some (if res = p then tresPat ++ cap ++ ['"']
      else tresPat ++ ['r', 'e', 's', ':', '/', '/'] ++ renderComps res ++ ['"'])

/-- The capture `modify_tres_loads` re-emits between the quotes of an
`ext_resource` site (meaningful when the `res://` strip succeeds). -/
def newCapT (fsEx : List PComp → Bool) (cwd : List PComp)
    (dm : List (String × String)) (cap : List Char) : List Char :=
  match stripResComps (componentsOf cap) with
  | none => cap
  | some stripped =>
    let res := modify_load fsEx stripped cwd dm
    if res = componentsOf cap then cap
    else ['r', 'e', 's', ':', '/', '/'] ++ renderComps res

/-- `Regex::replace_all` for the text-resource pattern; `none` propagates
the panic raised on a relative path. -/
def rwTres (fsEx : List PComp → Bool) (cwd : List PComp)
    (dm : List (String × String)) : Nat → List Char → Option (List Char)
  | 0, cs => some cs
  | _ + 1, [] => some []
  | fuel + 1, c :: cs =>
    match tryTresAt (c :: cs) with
    | some (cap, rest) =>
      match tresReplacement fsEx cwd dm cap with
      | none => none
      | some repl => (rwTres fsEx cwd dm fuel rest).map (fun t => repl ++ t)
    | none => (rwTres fsEx cwd dm fuel cs).map (fun t => c :: t)

/-- `Package::modify_tres_loads` (`none` models the panic). -/
def modify_tres_loads (fsEx : List PComp → Bool) (cwd : List PComp)
    (dm : List (String × String)) (t : String) : Option String :=
  (rwTres fsEx cwd dm t.data.length t.data).map (fun cs => (⟨cs⟩ : String))

/-- The text-resource rewrite of a whole character list (fuel = length). -/
def rwTresFull (fsEx : List PComp → Bool) (cwd : List PComp)
    (dm : List (String × String)) (cs : List Char) : Option (List Char) :=
  rwTres fsEx cwd dm cs.length cs

/-- Does every site matched by the text-resource regex carry a path whose
first component is `res:` (so that `strip_prefix("res://")` succeeds)? -/
def tresSitesAbsolute : Nat → List Char → Bool
  | 0, _ => true
  | _ + 1, [] => true
  | fuel + 1, c :: cs =>
    match tryTresAt (c :: cs) with
    | some (cap, rest) =>
      (stripResComps (componentsOf cap)).isSome && tresSitesAbsolute fuel rest
    | none => tresSitesAbsolute fuel cs

/-- A component as it can occur after the head of a parsed path: `..`, or a
normal name that is non-empty, not `.`/`..`, and separator-free. -/
def goodComp (c : PComp) : Prop :=
  c = PComp.parentDir ∨
  ∃ n, c = PComp.normal n ∧ n ≠ [] ∧ n ≠ ['.'] ∧ n ≠ ['.', '.'] ∧ '/' ∉ n

/-- The character `bad` does not occur in the name of `c`. -/
def compNoChar (bad : Char) (c : PComp) : Prop :=
  ∀ n, c = PComp.normal n → bad ∉ n

/-- Every install directory recorded in the dependency map exists on disk,
together with everything below it (the state of affairs after a successful
install): this is the premise that makes the rewrite's step-2 short-circuit
fire on already-rewritten references. -/
def depMapTargetsExist (fsEx : List PComp → Bool) (cwd : List PComp)
    (dm : List (String × String)) : Prop :=
  ∀ k v, List.lookup k dm = some v →
    ∀ rest : List PComp,
      (fsEx (componentsOf v.data ++ rest)
        || fsEx (pathJoin cwd (componentsOf v.data ++ rest))) = true

/-- Dependency-map values are plain relative paths: their components are all
normal, and they contain no `)` or `"` (true of the `addons/...` values
`dep_map` builds from well-formed package names). -/
def depMapValuesClean (dm : List (String × String)) : Prop :=
  ∀ k v, List.lookup k dm = some v →
    (∀ c ∈ componentsOf v.data, c.isNormal = true) ∧ ')' ∉ v.data ∧ '"' ∉ v.data

/-- Modelled from the spec: the shape of one serialized lockfile entry —
exactly the fields `name`, `version` and `tarball`; the digest and
dependency fields do not appear in the serialized form. -/
structure LockEntry where
  name : String
  version : String
  tarball : String
deriving DecidableEq, Repr

/-- Modelled from the spec: a package as `lock` sees it — its identifying
fields, its tarball URL, and whether it is currently installed
(materialized on disk).  The input list stands for `collect()`'s result:
roots plus transitive dependencies. -/
structure LPkg where
  name : String
  version : String
  tarball : String
  installed : Bool
deriving DecidableEq, Repr

/-- Modelled from the spec: `prepare_lock` keeps `name`, `version` and
`tarball`, dropping the digest and dependency fields. -/
def prepare_lock (p : LPkg) : LockEntry :=
  ⟨p.name, p.version, p.tarball⟩

/-- Ascending order on lock entries by the pair `(name, version)`. -/
def entryLe (a b : LockEntry) : Prop :=
  a.name < b.name ∨ (a.name = b.name ∧ a.version ≤ b.version)

instance : DecidableRel entryLe := fun a b => by
  unfold entryLe
  infer_instance

instance : IsTotal LockEntry entryLe := by
  constructor
  intro a b
  rcases lt_trichotomy a.name b.name with h | h | h
  · exact Or.inl (Or.inl h)
  · rcases le_total a.version b.version with hv | hv
    · exact Or.inl (Or.inr ⟨h, hv⟩)
    · exact Or.inr (Or.inr ⟨h.symm, hv⟩)
  · exact Or.inr (Or.inl h)

instance : IsTrans LockEntry entryLe := by
  constructor
  intro a b c hab hbc
  rcases hab with hab | ⟨hab, hav⟩
  · rcases hbc with hbc | ⟨hbc, _⟩
    · exact Or.inl (hab.trans hbc)
    · exact Or.inl (hbc ▸ hab)
  · rcases hbc with hbc | ⟨hbc, hbv⟩
    · exact Or.inl (hab ▸ hbc)
    · exact Or.inr ⟨hab.trans hbc, hav.trans hbv⟩

/-- Modelled from the spec: `ConfigFile::lock` — keep the installed
packages of the collected set, strip each to its lock entry, and sort
ascending by `(name, version)`. -/
def lock (pkgs : List LPkg) : List LockEntry :=
  List.insertionSort entryLe ((pkgs.filter (fun p => p.installed)).map prepare_lock)

/-! ## Proofs -/

lemma splitSlash_no_slash (cs : List Char) : ∀ s ∈ splitSlash cs, '/' ∉ s := by
  induction cs with
  | nil => intro s hs; simp [splitSlash] at hs; simp [hs]
  | cons c rest ih =>
    intro s hs
    by_cases hc : c = '/'
    · simp [splitSlash, hc] at hs
      rcases hs with h | h
      · simp [h]
      · exact ih s h
    · simp [splitSlash, hc] at hs
      rcases hrest : splitSlash rest with _ | ⟨t, ts⟩
      · rw [hrest] at hs; simp at hs
        rcases hs with rfl
        intro hmem
        rcases List.mem_cons.mp hmem with h | h
        · exact hc h.symm
        · simp at h
      · rw [hrest] at hs
        rcases List.mem_cons.mp hs with rfl | h
        · intro hmem
          rcases List.mem_cons.mp hmem with h | h
          · exact hc h.symm
          · exact ih t (by rw [hrest]; exact List.mem_cons_self t ts) h
        · exact ih s (by rw [hrest]; exact List.mem_cons_of_mem t h)

/-- Every normal component produced by the Unix component parser is a
non-empty name other than `.` and `..`, containing no separator. -/
lemma componentsOf_normal_shape (cs : List Char) :
    ∀ c ∈ componentsOf cs, ∀ n, c = PComp.normal n →
      n ≠ [] ∧ n ≠ ['.'] ∧ n ≠ ['.', '.'] ∧ '/' ∉ n := by
  intro c hc n hn
  subst hn
  unfold componentsOf at hc
  simp only [List.mem_append] at hc
  rcases hc with hc | hc
  · rcases hc with hc | hc
    · split at hc <;> simp_all
    · split at hc <;> simp_all
  · simp only [List.mem_map] at hc
    obtain ⟨s, hs, hmap⟩ := hc
    unfold pathSegs at hs
    rw [List.mem_filter] at hs
    obtain ⟨hmem, hprop⟩ := hs
    by_cases hdd : s = ['.', '.']
    · simp [hdd] at hmap
    · simp [hdd] at hmap
      subst hmap
      simp only [decide_not, Bool.and_eq_true, decide_eq_true_eq, Bool.not_eq_true',
        decide_eq_false_iff_not] at hprop
      exact ⟨hprop.1, hprop.2, hdd, splitSlash_no_slash cs s hmem⟩

lemma skip_toplevel_all_normal (cs : List PComp) :
    ∀ c ∈ skip_toplevel cs, c.isNormal = true := by
  intro c hc
  unfold skip_toplevel at hc
  exact (List.mem_filter.mp hc).2

lemma skip_toplevel_sublist (cs : List PComp) :
    List.Sublist (skip_toplevel cs) cs := by
  unfold skip_toplevel
  exact (List.filter_sublist _).trans (List.drop_sublist 1 cs)

lemma resolvePath_all_normal (cs : List PComp) (base : List (List Char))
    (h : ∀ c ∈ cs, c.isNormal = true) :
    resolvePath base cs = base ++ normalNames cs := by
  induction cs generalizing base with
  | nil => simp [resolvePath, normalNames]
  | cons c rest ih =>
    have hc := h c (List.mem_cons_self c rest)
    match c with
    | .normal n =>
      have hrest : ∀ x ∈ rest, x.isNormal = true := fun x hx => h x (List.mem_cons_of_mem _ hx)
      show resolvePath (base ++ [n]) rest = _
      rw [ih (base ++ [n]) hrest]
      simp [normalNames, List.append_assoc]
    | .rootDir => simp [PComp.isNormal] at hc
    | .curDir => simp [PComp.isNormal] at hc
    | .parentDir => simp [PComp.isNormal] at hc
    | .winPrefix => simp [PComp.isNormal] at hc

/-- C1: for every archive entry name (tar or zip), dropping the first path
component and keeping only `Normal` components yields a component list whose
every element is a normal name (never `..`, `.`, an empty name, a root, or a
prefix/volume component), so joining it onto `dst` resolves to a directory
that extends `dst`: every file or directory written by extraction lies
inside `dst`. -/
theorem skip_toplevel_stays_inside_dst (s : String) (dst : List (List Char)) :
    (∀ c ∈ skip_toplevel (pathComponents s), ∃ n, c = PComp.normal n ∧
        n ≠ [] ∧ n ≠ ['.'] ∧ n ≠ ['.', '.'] ∧ '/' ∉ n) ∧
    resolvePath dst (skip_toplevel (pathComponents s))
      = dst ++ normalNames (skip_toplevel (pathComponents s)) ∧
    dst <+: resolvePath dst (skip_toplevel (pathComponents s)) := by
  have hnorm := skip_toplevel_all_normal (pathComponents s)
  have hres := resolvePath_all_normal (skip_toplevel (pathComponents s)) dst hnorm
  refine ⟨?_, hres, ?_⟩
  · intro c hc
    have hnc := hnorm c hc
    match c with
    | .normal n =>
      have hmem : PComp.normal n ∈ componentsOf s.data :=
        (skip_toplevel_sublist (pathComponents s)).subset hc
      exact ⟨n, rfl, componentsOf_normal_shape s.data _ hmem n rfl⟩
    | .rootDir => simp [PComp.isNormal] at hnc
    | .curDir => simp [PComp.isNormal] at hnc
    | .parentDir => simp [PComp.isNormal] at hnc
    | .winPrefix => simp [PComp.isNormal] at hnc
  · rw [hres]
    exact ⟨_, rfl⟩

/-- Witness for C1 at the hostile entry name `pkg/../../../etc/passwd` and
destination directory `dst`: the parent components are filtered out and the
computed destination stays inside `dst`. -/
theorem skip_toplevel_stays_inside_dst_witness :
    resolvePath [['d', 's', 't']] (skip_toplevel (pathComponents "pkg/../../../etc/passwd"))
        = [['d', 's', 't'], ['e', 't', 'c'], ['p', 'a', 's', 's', 'w', 'd']] ∧
    [['d', 's', 't']] <+:
      resolvePath [['d', 's', 't']] (skip_toplevel (pathComponents "pkg/../../../etc/passwd")) :=
  ⟨by decide,
   (skip_toplevel_stays_inside_dst "pkg/../../../etc/passwd" [['d', 's', 't']]).2.2⟩

lemma find_version_fold_spec {V E : Type} [LinearOrder V] (test : V → Bool)
    (l : List (V × E)) :
    ∀ acc : Option (E × V),
      (∀ e v, acc = some (e, v) → test v = true) →
      (∀ e v, l.foldl (find_version_step test) acc = some (e, v) →
        test v = true ∧ ((v, e) ∈ l ∨ acc = some (e, v)) ∧
        (∀ p ∈ l, test p.1 = true → ¬ v < p.1) ∧
        (∀ e0 v0, acc = some (e0, v0) → ¬ v < v0)) ∧
      (l.foldl (find_version_step test) acc = none →
        acc = none ∧ ∀ p ∈ l, test p.1 = false) := by
  induction l with
  | nil =>
    intro acc haccok
    constructor
    · intro e v h
      simp only [List.foldl_nil] at h
      refine ⟨haccok e v h, Or.inr h, by simp, ?_⟩
      intro e0 v0 h0
      rw [h] at h0
      injection h0 with h0
      injection h0 with h1 h2
      subst h1
      subst h2
      exact lt_irrefl v
    · intro h
      simp only [List.foldl_nil] at h
      exact ⟨h, by simp⟩
  | cons p l ih =>
    intro acc haccok
    by_cases htp : test p.1 = true
    · rcases acc with _ | ⟨e0, v0⟩
      · -- accumulator empty: the head is taken
        have hstep : find_version_step test none p = some (p.2, p.1) := by
          simp [find_version_step, htp]
        have hok2 : ∀ e v, (some (p.2, p.1) : Option (E × V)) = some (e, v) → test v = true := by
          intro e v h0
          injection h0 with h0
          injection h0 with h1 h2
          subst h2
          exact htp
        constructor
        · intro e v h
          rw [List.foldl_cons, hstep] at h
          obtain ⟨ht, hmem, hmax, hacc⟩ := (ih (some (p.2, p.1)) hok2).1 e v h
          refine ⟨ht, ?_, ?_, ?_⟩
          · rcases hmem with hm | hm
            · exact Or.inl (List.mem_cons_of_mem _ hm)
            · injection hm with hm
              injection hm with h1 h2
              subst h1
              subst h2
              exact Or.inl (by simp)
          · intro q hq htq
            rcases List.mem_cons.mp hq with rfl | hq
            · exact hacc q.2 q.1 rfl
            · exact hmax q hq htq
          · intro ea va h0
            cases h0
        · intro h
          rw [List.foldl_cons, hstep] at h
          obtain ⟨ha, _⟩ := (ih (some (p.2, p.1)) hok2).2 h
          cases ha
      · -- accumulator holds (e0, v0)
        have hok0 : ∀ e v, (some (e0, v0) : Option (E × V)) = some (e, v) → test v = true :=
          haccok
        by_cases hlt : p.1 < v0
        · -- head loses the comparison: `continue`
          have hstep : find_version_step test (some (e0, v0)) p = some (e0, v0) := by
            simp [find_version_step, htp, compare_lt_iff_lt.mpr hlt]
          constructor
          · intro e v h
            rw [List.foldl_cons, hstep] at h
            obtain ⟨ht, hmem, hmax, hacc⟩ := (ih (some (e0, v0)) hok0).1 e v h
            refine ⟨ht, hmem.imp (List.mem_cons_of_mem _) id, ?_, hacc⟩
            intro q hq htq
            rcases List.mem_cons.mp hq with rfl | hq
            · have hv0 : ¬ v < v0 := hacc e0 v0 rfl
              intro hvq
              exact hv0 (hvq.trans hlt)
            · exact hmax q hq htq
          · intro h
            rw [List.foldl_cons, hstep] at h
            obtain ⟨ha, _⟩ := (ih (some (e0, v0)) hok0).2 h
            cases ha
        · -- head wins (or ties): it replaces the accumulator
          have hcmp : compare p.1 v0 ≠ Ordering.lt := fun hc => hlt (compare_lt_iff_lt.mp hc)
          have hstep : find_version_step test (some (e0, v0)) p = some (p.2, p.1) := by
            simp [find_version_step, htp, hcmp]
          have hok2 : ∀ e v, (some (p.2, p.1) : Option (E × V)) = some (e, v) → test v = true := by
            intro e v h0
            injection h0 with h0
            injection h0 with h1 h2
            subst h2
            exact htp
          constructor
          · intro e v h
            rw [List.foldl_cons, hstep] at h
            obtain ⟨ht, hmem, hmax, hacc⟩ := (ih (some (p.2, p.1)) hok2).1 e v h
            have hvp : ¬ v < p.1 := hacc p.2 p.1 rfl
            refine ⟨ht, ?_, ?_, ?_⟩
            · rcases hmem with hm | hm
              · exact Or.inl (List.mem_cons_of_mem _ hm)
              · injection hm with hm
                injection hm with h1 h2
                subst h1
                subst h2
                exact Or.inl (by simp)
            · intro q hq htq
              rcases List.mem_cons.mp hq with rfl | hq
              · exact hvp
              · exact hmax q hq htq
            · intro ea va h0
              injection h0 with h0
              injection h0 with h1 h2
              subst h2
              have hv0 : v0 ≤ p.1 := le_of_not_lt hlt
              intro hvv0
              exact hvp (lt_of_lt_of_le hvv0 hv0)
          · intro h
            rw [List.foldl_cons, hstep] at h
            obtain ⟨ha, _⟩ := (ih (some (p.2, p.1)) hok2).2 h
            cases ha
    · -- head fails the range test: the accumulator is unchanged
      have hstep : find_version_step test acc p = acc := by
        simp [find_version_step, htp]
      constructor
      · intro e v h
        rw [List.foldl_cons, hstep] at h
        obtain ⟨ht, hmem, hmax, hacc⟩ := (ih acc haccok).1 e v h
        refine ⟨ht, hmem.imp (List.mem_cons_of_mem _) id, ?_, hacc⟩
        intro q hq htq
        rcases List.mem_cons.mp hq with rfl | hq
        · exact absurd htq htp
        · exact hmax q hq htq
      · intro h
        rw [List.foldl_cons, hstep] at h
        obtain ⟨ha, hall⟩ := (ih acc haccok).2 h
        refine ⟨ha, ?_⟩
        intro q hq
        rcases List.mem_cons.mp hq with rfl | hq
        · exact Bool.not_eq_true _ ▸ (by simpa using htp)
        · exact hall q hq

/-- C3: `find_version` returns an entry of the cached set whose version
satisfies the range, such that no strictly greater cached version satisfies
the range, and returns `none` exactly when no cached version matches. -/
theorem find_version_selects_greatest_matching {V E : Type} [LinearOrder V]
    (entries : List (V × E)) (test : V → Bool) :
    (∀ e, find_version entries test = some e →
      ∃ v, (v, e) ∈ entries ∧ test v = true ∧
        ∀ p ∈ entries, test p.1 = true → ¬ v < p.1) ∧
    (find_version entries test = none → ∀ p ∈ entries, test p.1 = false) := by
  constructor
  · intro e h
    unfold find_version at h
    match hfold : entries.foldl (find_version_step test) none with
    | some (e1, v1) =>
      rw [hfold] at h
      simp only [Option.map_some'] at h
      injection h with h
      subst h
      obtain ⟨ht, hmem, hmax, _⟩ :=
        (find_version_fold_spec test entries none (by simp)).1 e1 v1 hfold
      rcases hmem with hm | hm
      · exact ⟨v1, hm, ht, hmax⟩
      · injection hm
    | none => rw [hfold] at h; simp at h
  · intro h
    unfold find_version at h
    match hfold : entries.foldl (find_version_step test) none with
    | some (e1, v1) => rw [hfold] at h; simp at h
    | none => exact ((find_version_fold_spec test entries none (by simp)).2 hfold).2

/-- Witness for C3 on a concrete cached set over `Nat` versions: with
versions `1, 3, 2` cached and the range `v ≤ 2`, the entry at version `2` is
selected. -/
theorem find_version_selects_greatest_matching_witness :
    find_version [(1, "one"), (3, "three"), (2, "two")] (fun v : Nat => v ≤ 2)
      = some "two" ∧
    ∃ v, (v, "two") ∈ [((1 : Nat), "one"), (3, "three"), (2, "two")] ∧
      (decide (v ≤ 2)) = true ∧
      ∀ p ∈ [((1 : Nat), "one"), (3, "three"), (2, "two")],
        (decide (p.1 ≤ 2)) = true → ¬ v < p.1 := by
  refine ⟨by decide, ?_⟩
  exact (find_version_selects_greatest_matching
    [(1, "one"), (3, "three"), (2, "two")] (fun v : Nat => decide (v ≤ 2))).1
    "two" (by decide)

/-- C10: `ParsedPackage::from_str` is panic-free on every non-empty input
(it returns a parsed package or an invalid-name error), and panics on the
empty string via the unguarded byte index `s.as_bytes()[0]`. -/
theorem from_str_panics_exactly_on_empty :
    (∀ s : String, s ≠ "" → (Parsing.from_str s).isSome = true) ∧
    Parsing.from_str "" = none := by
  constructor
  · intro s hne
    by_cases h1 : ':' ∈ s.data
    · simp [Parsing.from_str, h1]
    · by_cases h2 : '=' ∈ s.data
      · simp [Parsing.from_str, h1, h2]
      · rcases hd : s.data with _ | ⟨c, rest⟩
        · exfalso
          apply hne
          cases s
          simp only [String.data] at hd
          simp [hd]
        · rw [hd] at h1 h2
          have h1r : ':' ∉ rest := fun h => h1 (List.mem_cons_of_mem _ h)
          have h2r : '=' ∉ rest := fun h => h2 (List.mem_cons_of_mem _ h)
          by_cases hc : c = '@'
          · rcases hsp : Parsing.splitOnceList rest '@' with _ | ⟨p, v⟩ <;>
              simp [Parsing.from_str, hd, h1, h2, h1r, h2r, hc, hsp]
          · simp [Parsing.from_str, hd, h1, h2, h1r, h2r, hc]
  · have hd : ("" : String).data = [] := rfl
    simp [Parsing.from_str, hd]

/-- Witness for C10: a concrete non-empty input parses without panic. -/
theorem from_str_panics_exactly_on_empty_witness :
    (Parsing.from_str "@bendn/gdcli:1.2.5").isSome = true ∧
    Parsing.from_str "" = none :=
  ⟨from_str_panics_exactly_on_empty.1 "@bendn/gdcli:1.2.5" (by decide),
   from_str_panics_exactly_on_empty.2⟩

/-- C2: when the SHA-1 hex digest of the fetched tarball bytes does not
equal the manifest's `shasum`, `Package::download` panics at the
`assert_eq!` before any extraction event, and the download directory is
absent (the purge that precedes verification has removed it; nothing was
extracted). -/
theorem checksum_mismatch_fails_before_extract
    (hexSha1 : List Nat → String) (shasum : String) (bytes : List Nat)
    (tarEntries : List String) (dst : Option (List String))
    (h : hexSha1 bytes ≠ shasum) :
    (package_download hexSha1 shasum bytes tarEntries dst).1 = none ∧
    (package_download hexSha1 shasum bytes tarEntries dst).2.1
        = some "Tarball did not match checksum!" ∧
    DlEvent.extract ∉ (package_download hexSha1 shasum bytes tarEntries dst).2.2 := by
  unfold package_download
  rw [if_neg h]
  exact ⟨rfl, rfl, by simp⟩

/-- Witness for C2: a digest function that reports `deadbeef` against a
recorded shasum `cafebabe`, on a filesystem where the target directory
exists before the install. -/
theorem checksum_mismatch_fails_before_extract_witness :
    (package_download (fun _ => "deadbeef") "cafebabe" [1, 2, 3] ["main.gd"]
        (some ["old.gd"])).1 = none ∧
    (package_download (fun _ => "deadbeef") "cafebabe" [1, 2, 3] ["main.gd"]
        (some ["old.gd"])).2.1 = some "Tarball did not match checksum!" ∧
    DlEvent.extract ∉ (package_download (fun _ => "deadbeef") "cafebabe" [1, 2, 3]
        ["main.gd"] (some ["old.gd"])).2.2 :=
  checksum_mismatch_fails_before_extract (fun _ => "deadbeef") "cafebabe" [1, 2, 3]
    ["main.gd"] (some ["old.gd"]) (by decide)

/-- C7: when the registry body is the literal string `"Not Found"`, both
metadata-fetching operations return a not-found error that names the
package, independently of (and without consulting) the metadata parser. -/
theorem not_found_body_is_not_parsed {α : Type}
    (name version resp : String) (parse : String → Except String α)
    (h : resp = "\"Not Found\"") :
    new_no_version_resp name resp parse
        = Except.error ("Package " ++ name ++ " was not found") ∧
    get_manifest_resp name version resp parse
        = Except.error ("Package " ++ name ++ "@" ++ version ++ " was not found") := by
  subst h
  exact ⟨if_pos rfl, if_pos rfl⟩

/-- Witness for C7 at a concrete package and a parser that would accept the
body if it were consulted. -/
theorem not_found_body_is_not_parsed_witness :
    new_no_version_resp "@bendn/test" "\"Not Found\"" (fun _ => Except.ok 0)
        = Except.error "Package @bendn/test was not found" ∧
    get_manifest_resp "@bendn/test" "2.0.10" "\"Not Found\"" (fun _ => Except.ok 0)
        = Except.error "Package @bendn/test@2.0.10 was not found" :=
  not_found_body_is_not_parsed "@bendn/test" "2.0.10" "\"Not Found\""
    (fun _ => Except.ok 0) rfl

/-- C5: for a load path that resolves neither verbatim nor under `cwd`,
`modify_load` looks up the second path component in the dependency map: on a
hit it replaces the first two components with the mapped install directory
and keeps the remainder; on a miss it returns the path unchanged (the
warning is printed on `stderr` and does not affect the result). -/
theorem modify_load_uses_dep_map (fsEx : List PComp → Bool)
    (path cwd : List PComp) (dm : List (String × String)) (c : PComp)
    (h1 : fsEx path = false) (h2 : fsEx (pathJoin cwd path) = false)
    (hc : path.get? 1 = some c) :
    (∀ d, List.lookup c.osStr dm = some d →
      modify_load fsEx path cwd dm = componentsOf d.data ++ path.drop 2) ∧
    (List.lookup c.osStr dm = none → modify_load fsEx path cwd dm = path) := by
  unfold modify_load
  rw [h1, h2, hc]
  simp only [Bool.or_self, Bool.false_eq_true, if_false]
  constructor
  · intro d hd
    rw [hd]
  · intro hd
    rw [hd]

/-- Witness for C5 at the spec's example: with `@bendn/test@2.0.10` direct
and `@bendn/gdcli@1.2.5` indirect, the unresolvable
`addons/gdcli/Parser.gd` is rewritten through the `gdcli` alias to the
indirect install directory, and at text level
`load('res://addons/gdcli/Parser.gd')` becomes
`load('res://addons/__gpm_deps/@bendn/gdcli/1.2.5/Parser.gd')`. -/
theorem modify_load_uses_dep_map_witness :
    modify_load (fun _ => false) (pathComponents "addons/gdcli/Parser.gd")
        (pathComponents "addons/@bendn/test")
        (dep_map ⟨"@bendn/test", "2.0.10", false⟩ [⟨"@bendn/gdcli", "1.2.5", true⟩])
      = pathComponents "addons/__gpm_deps/@bendn/gdcli/1.2.5/Parser.gd" ∧
    modify_script_loads (fun _ => false) (pathComponents "addons/@bendn/test")
        (dep_map ⟨"@bendn/test", "2.0.10", false⟩ [⟨"@bendn/gdcli", "1.2.5", true⟩])
        "load('res://addons/gdcli/Parser.gd')"
      = "load('res://addons/__gpm_deps/@bendn/gdcli/1.2.5/Parser.gd')" := by
  constructor
  · rw [(modify_load_uses_dep_map (fun _ => false)
      (pathComponents "addons/gdcli/Parser.gd") (pathComponents "addons/@bendn/test")
      (dep_map ⟨"@bendn/test", "2.0.10", false⟩ [⟨"@bendn/gdcli", "1.2.5", true⟩])
      (PComp.normal ['g', 'd', 'c', 'l', 'i']) rfl rfl (by decide)).1
      "addons/__gpm_deps/@bendn/gdcli/1.2.5" (by decide)]
    decide
  · decide

lemma tresReplacement_none_iff (fsEx : List PComp → Bool) (cwd : List PComp)
    (dm : List (String × String)) (cap : List Char) :
    tresReplacement fsEx cwd dm cap = none ↔
      stripResComps (componentsOf cap) = none := by
  unfold tresReplacement
  cases h : stripResComps (componentsOf cap) with
  | none => simp [h]
  | some r => simp [h]

lemma rwTres_isSome_eq_sitesAbsolute (fsEx : List PComp → Bool) (cwd : List PComp)
    (dm : List (String × String)) :
    ∀ (fuel : Nat) (cs : List Char),
      (rwTres fsEx cwd dm fuel cs).isSome = tresSitesAbsolute fuel cs := by
  intro fuel
  induction fuel with
  | zero => intro cs; rfl
  | succ k ih =>
    intro cs
    cases cs with
    | nil => rfl
    | cons c cs =>
      show (match tryTresAt (c :: cs) with
        | some (cap, rest) =>
          match tresReplacement fsEx cwd dm cap with
          | none => none
          | some repl => (rwTres fsEx cwd dm k rest).map (fun t => repl ++ t)
        | none => (rwTres fsEx cwd dm k cs).map (fun t => c :: t)).isSome = _
      cases ht : tryTresAt (c :: cs) with
      | none =>
        show ((rwTres fsEx cwd dm k cs).map (fun t => c :: t)).isSome = _
        rw [Option.isSome_map']
        rw [ih cs]
        show _ = (match tryTresAt (c :: cs) with
          | some (cap, rest) =>
            (stripResComps (componentsOf cap)).isSome && tresSitesAbsolute k rest
          | none => tresSitesAbsolute k cs)
        rw [ht]
      | some pr =>
        rcases pr with ⟨cap, rest⟩
        show (match tresReplacement fsEx cwd dm cap with
          | none => none
          | some repl => (rwTres fsEx cwd dm k rest).map (fun t => repl ++ t)).isSome = _
        have hrhs : tresSitesAbsolute (k + 1) (c :: cs)
            = ((stripResComps (componentsOf cap)).isSome && tresSitesAbsolute k rest) := by
          show (match tryTresAt (c :: cs) with
            | some (cap, rest) =>
              (stripResComps (componentsOf cap)).isSome && tresSitesAbsolute k rest
            | none => tresSitesAbsolute k cs) = _
          rw [ht]
        rw [hrhs]
        cases hrep : tresReplacement fsEx cwd dm cap with
        | none =>
          have hstrip := (tresReplacement_none_iff fsEx cwd dm cap).mp hrep
          rw [hstrip]
          rfl
        | some repl =>
          have hstrip : stripResComps (componentsOf cap) ≠ none := by
            intro hc
            rw [(tresReplacement_none_iff fsEx cwd dm cap).mpr hc] at hrep
            cases hrep
          rw [Option.isSome_map', ih rest]
          cases hs : stripResComps (componentsOf cap) with
          | none => exact absurd hs hstrip
          | some r => rfl

/-- C9 (amended): `modify_tres_loads` fails hard (panics at the
`strip_prefix("res://").expect(..)`) exactly when some matched
`[ext_resource path="PATH"` site has a `PATH` whose first path component is
not `res:` — `strip_prefix` matches by components, so `res://x`, `res:/x`
and `res://` all pass, while genuinely relative or otherwise-rooted paths
all panic; no such site is ever rewritten or silently kept. -/
theorem tres_rewrite_panic_iff_first_component_not_res
    (fsEx : List PComp → Bool) (cwd : List PComp) (dm : List (String × String))
    (t : String) :
    (modify_tres_loads fsEx cwd dm t).isSome
      = tresSitesAbsolute t.data.length t.data := by
  unfold modify_tres_loads
  rw [Option.isSome_map']
  exact rwTres_isSome_eq_sitesAbsolute fsEx cwd dm t.data.length t.data

/-- Counterexample to C9 as stated: the path `res:/x` does not begin with
`res://`, yet the rewrite does not fail on it — `Path::strip_prefix`
compares parsed components, and both `res://` and `res:/x` start with the
component `res:`. -/
theorem tres_relative_looking_path_no_panic :
    (modify_tres_loads (fun _ => false) [] [] "[ext_resource path=\"res:/x\"]").isSome
        = true ∧
    List.isPrefixOf "res://".data "res:/x".data = false := by
  constructor
  · decide
  · decide

mutual
theorem removed_not_exists_tree : ∀ (t : FsTree) (x : String) (xs : List String),
    dirExistsAt (remove_dir_all_at t (x :: xs)) (x :: xs) = false
  | .node _ ds, x, xs => removed_not_exists_forest ds x xs
theorem removed_not_exists_forest : ∀ (f : FsForest) (x : String) (xs : List String),
    existsForest (removeForest f x xs) x xs = false
  | .nil, _, _ => rfl
  | .cons n t rest, x, xs => by
    by_cases hn : n = x
    · cases xs with
      | nil =>
        simp only [removeForest, if_pos hn]
        exact removed_not_exists_forest rest x []
      | cons y ys =>
        simp only [removeForest, if_pos hn, existsForest]
        rw [removed_not_exists_tree t y ys, removed_not_exists_forest rest x (y :: ys)]
        simp
    · simp only [removeForest, if_neg hn, existsForest]
      rw [removed_not_exists_forest rest x xs]
      simp [hn]
end

mutual
theorem exists_after_remove_tree : ∀ (t : FsTree) (p q : List String),
    dirExistsAt (remove_dir_all_at t p) q = true → dirExistsAt t q = true
  | .node _ _, [], _ => fun h => h
  | .node _ _, _ :: _, [] => fun _ => rfl
  | .node _ ds, x :: xs, b :: bs => fun h => exists_after_remove_forest ds x xs b bs h
theorem exists_after_remove_forest : ∀ (f : FsForest) (x : String) (xs : List String)
    (b : String) (bs : List String),
    existsForest (removeForest f x xs) b bs = true → existsForest f b bs = true
  | .nil, _, _, _, _ => fun h => h
  | .cons n t rest, x, xs, b, bs => by
    intro h
    by_cases hn : n = x
    · cases xs with
      | nil =>
        simp only [removeForest, if_pos hn] at h
        have hr := exists_after_remove_forest rest x [] b bs h
        simp [existsForest, hr]
      | cons y ys =>
        simp only [removeForest, if_pos hn, existsForest] at h
        rcases Bool.or_eq_true_iff.mp h with h1 | h2
        · rw [Bool.and_eq_true] at h1
          have ht := exists_after_remove_tree t (y :: ys) bs h1.2
          simp [existsForest, h1.1, ht]
        · have hr := exists_after_remove_forest rest x (y :: ys) b bs h2
          simp [existsForest, hr]
    · simp only [removeForest, if_neg hn, existsForest] at h
      rcases Bool.or_eq_true_iff.mp h with h1 | h2
      · simp [existsForest, h1]
      · have hr := exists_after_remove_forest rest x xs b bs h2
        simp [existsForest, hr]
end

lemma purgeAll_keeps_nonexistent (pkgs : List PkgId) :
    ∀ (t : FsTree) (q : List String),
      dirExistsAt t q = false → dirExistsAt (purgeAll t pkgs) q = false := by
  induction pkgs with
  | nil => intro t q h; exact h
  | cons p rest ih =>
    intro t q h
    show dirExistsAt (purgeAll (remove_dir_all_at t p.download_dir) rest) q = false
    apply ih
    cases hq : dirExistsAt (remove_dir_all_at t p.download_dir) q with
    | false => rfl
    | true => rw [exists_after_remove_tree t p.download_dir q hq] at h; exact h.symm ▸ rfl

lemma download_dir_cons (p : PkgId) : ∃ x xs, p.download_dir = x :: xs := by
  rcases p with ⟨n, v, i⟩
  cases i <;> exact ⟨_, _, rfl⟩

/-- Every download directory removed by the purge loop is absent afterwards,
no matter which other packages are purged in the same loop. -/
theorem purgeAll_removes (pkgs : List PkgId) :
    ∀ (t : FsTree), ∀ p ∈ pkgs, dirExistsAt (purgeAll t pkgs) p.download_dir = false := by
  induction pkgs with
  | nil => intro t p hp; cases hp
  | cons q rest ih =>
    intro t p hp
    rcases List.mem_cons.mp hp with rfl | hp
    · show dirExistsAt (purgeAll (remove_dir_all_at t p.download_dir) rest) p.download_dir = false
      apply purgeAll_keeps_nonexistent
      obtain ⟨x, xs, hx⟩ := download_dir_cons p
      rw [hx]
      exact removed_not_exists_tree t x xs
    · exact ih (remove_dir_all_at t q.download_dir) p hp

lemma rde_some_shape (fs : List String) (ds : FsForest) (u : FsTree) :
    recursive_delete_empty (.node fs ds) = some u → u = .node fs (rdeForest ds) := by
  unfold recursive_delete_empty
  by_cases h : (fs.isEmpty && ds.isNil) = true
  · rw [if_pos h]
    intro hc
    cases hc
  · rw [if_neg h]
    intro hc
    injection hc with hc
    exact hc.symm

lemma rde_of_empty (fs : List String) (ds : FsForest)
    (hfs : fs.isEmpty = true) (hds : ds.isNil = true) :
    recursive_delete_empty (.node fs ds) = none := by
  unfold recursive_delete_empty
  rw [if_pos (by rw [hfs, hds]; rfl)]

mutual
theorem rde_shrinks_tree : ∀ (t : FsTree) (m : Nat),
    t.noFiles = true → t.height ≤ m + 1 →
    ∀ u, recursive_delete_empty t = some u → u.noFiles = true ∧ u.height ≤ m
  | .node fs ds, m => by
    intro hnf hh u hu
    simp only [FsTree.noFiles, Bool.and_eq_true] at hnf
    obtain ⟨hfs, hds⟩ := hnf
    have hshape := rde_some_shape fs ds u hu
    subst hshape
    match m, ds with
    | m, .nil =>
      rw [rde_of_empty fs .nil hfs rfl] at hu
      cases hu
    | 0, .cons nm t0 rest =>
      exfalso
      have hh1 : FsForest.heightF (.cons nm t0 rest) ≤ 0 := by
        simp only [FsTree.height] at hh
        omega
      have hpos : 1 ≤ FsForest.heightF (.cons nm t0 rest) := by
        show 1 ≤ max t0.height (FsForest.heightF rest)
        rcases t0 with ⟨fs0, ds0⟩
        simp only [FsTree.height]
        omega
      omega
    | Nat.succ k, .cons nm t0 rest =>
      have hhf : FsForest.heightF (.cons nm t0 rest) ≤ k + 1 := by
        simp only [FsTree.height] at hh
        omega
      have hrec := rde_shrinks_forest (.cons nm t0 rest) k hds hhf
      constructor
      · simp only [FsTree.noFiles, Bool.and_eq_true]
        exact ⟨hfs, hrec.1⟩
      · simp only [FsTree.height]
        have := hrec.2
        omega
theorem rde_shrinks_forest : ∀ (f : FsForest) (m : Nat),
    f.noFilesF = true → f.heightF ≤ m + 1 →
    (rdeForest f).noFilesF = true ∧ (rdeForest f).heightF ≤ m
  | .nil, m => by
    intro _ _
    exact ⟨rfl, Nat.zero_le m⟩
  | .cons nm t rest, m => by
    intro hnf hh
    simp only [FsForest.noFilesF, Bool.and_eq_true] at hnf
    obtain ⟨hnt, hnr⟩ := hnf
    have hht : t.height ≤ m + 1 := by
      have hmax : max t.height rest.heightF ≤ m + 1 := hh
      omega
    have hhr : rest.heightF ≤ m + 1 := by
      have hmax : max t.height rest.heightF ≤ m + 1 := hh
      omega
    have hrest := rde_shrinks_forest rest m hnr hhr
    simp only [rdeForest]
    cases hr : recursive_delete_empty t with
    | none => exact hrest
    | some u =>
      have hu := rde_shrinks_tree t m hnt hht u hr
      constructor
      · simp only [FsForest.noFilesF, Bool.and_eq_true]
        exact ⟨hu.1, hrest.1⟩
      · show max u.height (rdeForest rest).heightF ≤ m
        have h1 := hu.2
        have h2 := hrest.2
        omega
end

/-- Transitively empty trees of height at most `n` are fully removed by `n`
top-down sweeps. -/
theorem sweeps_removes_empty : ∀ (n : Nat) (t : FsTree),
    t.noFiles = true → t.height ≤ n → sweeps n t = none := by
  intro n
  induction n with
  | zero =>
    intro t hnf hh
    exfalso
    rcases t with ⟨fs, ds⟩
    simp only [FsTree.height] at hh
    omega
  | succ k ih =>
    intro t hnf hh
    show (recursive_delete_empty t).bind (sweeps k) = none
    cases hr : recursive_delete_empty t with
    | none => rfl
    | some u =>
      have hu := rde_shrinks_tree t k hnf hh u hr
      exact ih u hu.1 hu.2

theorem sweepForest_zero : ∀ f : FsForest, sweepForest 0 f = f
  | .nil => rfl
  | .cons nm t rest => by
    show (match sweeps 0 t with
      | none => sweepForest 0 rest
      | some u => FsForest.cons nm u (sweepForest 0 rest)) = _
    simp only [sweeps, sweepForest_zero rest]

theorem sweepForest_succ (n : Nat) :
    ∀ f : FsForest, sweepForest n (rdeForest f) = sweepForest (n + 1) f
  | .nil => rfl
  | .cons nm t rest => by
    simp only [rdeForest]
    cases hr : recursive_delete_empty t with
    | none =>
      have hs : sweeps (n + 1) t = none := by
        show (recursive_delete_empty t).bind (sweeps n) = none
        rw [hr]
        rfl
      show sweepForest n (rdeForest rest) = sweepForest (n + 1) (.cons nm t rest)
      rw [sweepForest_succ n rest]
      show _ = (match sweeps (n + 1) t with
        | none => sweepForest (n + 1) rest
        | some u => FsForest.cons nm u (sweepForest (n + 1) rest))
      rw [hs]
    | some u =>
      have hs : sweeps (n + 1) t = sweeps n u := by
        show (recursive_delete_empty t).bind (sweeps n) = _
        rw [hr]
        rfl
      show (match sweeps n u with
        | none => sweepForest n (rdeForest rest)
        | some w => FsForest.cons nm w (sweepForest n (rdeForest rest))) = _
      rw [sweepForest_succ n rest]
      show _ = (match sweeps (n + 1) t with
        | none => sweepForest (n + 1) rest
        | some w => FsForest.cons nm w (sweepForest (n + 1) rest))
      rw [hs]

/-- Iterated sweeps act on the subdirectories of a surviving directory
pointwise (and drop the subdirectories they remove). -/
theorem sweeps_node_pointwise : ∀ (n : Nat) (fs : List String) (ds : FsForest),
    sweeps n (.node fs ds) = none ∨
    sweeps n (.node fs ds) = some (.node fs (sweepForest n ds)) := by
  intro n
  induction n with
  | zero =>
    intro fs ds
    right
    rw [sweepForest_zero]
    rfl
  | succ k ih =>
    intro fs ds
    cases hr : recursive_delete_empty (FsTree.node fs ds) with
    | none =>
      left
      show (recursive_delete_empty (FsTree.node fs ds)).bind (sweeps k) = none
      rw [hr]
      rfl
    | some u =>
      have hu := rde_some_shape fs ds u hr
      subst hu
      have hstep : sweeps (k + 1) (FsTree.node fs ds)
          = sweeps k (FsTree.node fs (rdeForest ds)) := by
        show (recursive_delete_empty (FsTree.node fs ds)).bind (sweeps k) = _
        rw [hr]
        rfl
      rw [hstep]
      rcases ih fs (rdeForest ds) with h | h
      · exact Or.inl h
      · right
        rw [h, sweepForest_succ]

/-- C8: after `purge` removes every installed configured package's download
directory, (i) none of those directories exists any more ("no package files
remain"), (ii) the purged tree is deleted entirely by the three sweeps
whenever it is transitively empty of files and of height at most three, and
more generally (iii) any transitively-empty subtree of height at most three
(such as `__gpm_deps` chains and empty intermediate directories) is removed
by three sweeps, which act pointwise on the subdirectories of every
surviving directory. -/
theorem purge_removes_packages_and_empties_addons (t : FsTree) (pkgs : List PkgId) :
    (∀ p ∈ pkgs, dirExistsAt (purgeAll t pkgs) p.download_dir = false) ∧
    ((purgeAll t pkgs).noFiles = true → (purgeAll t pkgs).height ≤ 3 →
      sweeps 3 (purgeAll t pkgs) = none) ∧
    (∀ u : FsTree, u.noFiles = true → u.height ≤ 3 → sweeps 3 u = none) ∧
    (∀ (fs : List String) (ds : FsForest),
      sweeps 3 (.node fs ds) = none ∨
      sweeps 3 (.node fs ds) = some (.node fs (sweepForest 3 ds))) :=
  ⟨purgeAll_removes pkgs t,
   sweeps_removes_empty 3 (purgeAll t pkgs),
   sweeps_removes_empty 3,
   sweeps_node_pointwise 3⟩

/-- Witness for C8 on the scenario-1 tree: both download directories are
gone after the purge loop, and the emptied `__gpm_deps` subtree (height 3)
is fully removed by the three sweeps. -/
theorem purge_removes_packages_and_empties_addons_witness :
    dirExistsAt (purgeAll scenarioTree scenarioPkgs)
        (PkgId.download_dir ⟨"@bendn/test", "2.0.10", false⟩) = false ∧
    dirExistsAt (purgeAll scenarioTree scenarioPkgs)
        (PkgId.download_dir ⟨"@bendn/gdcli", "1.2.5", true⟩) = false ∧
    sweeps 3 (FsTree.node []
      (.cons "@bendn" (.node [] (.cons "gdcli" (.node [] .nil) .nil)) .nil)) = none :=
  ⟨(purge_removes_packages_and_empties_addons scenarioTree scenarioPkgs).1
      ⟨"@bendn/test", "2.0.10", false⟩ (by decide),
   (purge_removes_packages_and_empties_addons scenarioTree scenarioPkgs).1
      ⟨"@bendn/gdcli", "1.2.5", true⟩ (by decide),
   (purge_removes_packages_and_empties_addons scenarioTree scenarioPkgs).2.2.1
      (FsTree.node []
        (.cons "@bendn" (.node [] (.cons "gdcli" (.node [] .nil) .nil)) .nil))
      (by decide) (by decide)⟩

lemma takeWhile_append_all {α : Type} (p : α → Bool) (xs ys : List α)
    (h : ∀ x ∈ xs, p x = true) :
    (xs ++ ys).takeWhile p = xs ++ ys.takeWhile p := by
  induction xs with
  | nil => rfl
  | cons a xs ih =>
    have ha := h a (List.mem_cons_self a xs)
    simp only [List.cons_append, List.takeWhile_cons, ha, if_true]
    rw [ih (fun x hx => h x (List.mem_cons_of_mem _ hx))]

lemma dropWhile_append_all {α : Type} (p : α → Bool) (xs ys : List α)
    (h : ∀ x ∈ xs, p x = true) :
    (xs ++ ys).dropWhile p = ys.dropWhile p := by
  induction xs with
  | nil => rfl
  | cons a xs ih =>
    have ha := h a (List.mem_cons_self a xs)
    simp only [List.cons_append, List.dropWhile_cons, ha, if_true]
    exact ih (fun x hx => h x (List.mem_cons_of_mem _ hx))

lemma mem_of_mem_takeWhile {α : Type} (p : α → Bool) (l : List α) :
    ∀ x ∈ l.takeWhile p, p x = true := by
  induction l with
  | nil => intro x hx; cases hx
  | cons a l ih =>
    intro x hx
    rw [List.takeWhile_cons] at hx
    by_cases ha : p a = true
    · rw [if_pos ha] at hx
      rcases List.mem_cons.mp hx with rfl | hx
      · exact ha
      · exact ih x hx
    · rw [if_neg ha] at hx
      cases hx

/-- Two decompositions of a list at the first occurrence of `b` agree. -/
lemma first_occurrence_unique {α : Type} (b : α) :
    ∀ (x1 x2 t1 t2 : List α), b ∉ x1 → b ∉ x2 →
      x1 ++ b :: t1 = x2 ++ b :: t2 → x1 = x2 ∧ t1 = t2 := by
  intro x1
  induction x1 with
  | nil =>
    intro x2 t1 t2 _ h2 heq
    cases x2 with
    | nil => simp at heq; exact ⟨rfl, heq⟩
    | cons c x2 =>
      simp only [List.nil_append, List.cons_append, List.cons.injEq] at heq
      exact absurd (heq.1 ▸ List.mem_cons_self c x2) h2
  | cons a x1 ih =>
    intro x2 t1 t2 h1 h2 heq
    cases x2 with
    | nil =>
      simp only [List.cons_append, List.nil_append, List.cons.injEq] at heq
      exact absurd (heq.1 ▸ List.mem_cons_self a x1) h1
    | cons c x2 =>
      simp only [List.cons_append, List.cons.injEq] at heq
      obtain ⟨rfl, heq⟩ := heq
      obtain ⟨hx, ht⟩ := ih x2 t1 t2 (fun hm => h1 (List.mem_cons_of_mem _ hm))
        (fun hm => h2 (List.mem_cons_of_mem _ hm)) heq
      exact ⟨by rw [hx], ht⟩

lemma exists_first_occurrence {α : Type} (b : α) (l : List α) (h : b ∈ l) :
    ∃ u w, l = u ++ b :: w ∧ b ∉ u := by
  induction l with
  | nil => cases h
  | cons a l ih =>
    by_cases hab : a = b
    · exact ⟨[], l, by simp [hab], by simp⟩
    · rcases List.mem_cons.mp h with rfl | hmem
      · exact absurd rfl hab
      · obtain ⟨u, w, hl, hu⟩ := ih hmem
        refine ⟨a :: u, w, by rw [hl]; rfl, ?_⟩
        intro hc
        rcases List.mem_cons.mp hc with rfl | hc
        · exact hab rfl
        · exact hu hc

lemma patChars_no_paren (pf : Bool) : ')' ∉ patChars pf := by
  cases pf <;> decide

lemma patChars_no_quote (pf : Bool) : ∀ c ∈ patChars pf, isQuote c = false := by
  cases pf <;> decide

lemma isPrefixOf_append_self (l t : List Char) : l.isPrefixOf (l ++ t) = true := by
  induction l with
  | nil => simp [List.isPrefixOf]
  | cons a l ih => simp [List.cons_append, List.isPrefixOf, ih]

/-- Inversion of `loadBody`: a successful body is an opening quote, the
non-empty `)`-free capture, a closing quote, and `)`. -/
lemma head_dropWhile_false {α : Type} (p : α → Bool) (l : List α) (a : α) (t : List α)
    (h : l.dropWhile p = a :: t) : p a = false := by
  induction l with
  | nil => cases h
  | cons x l ih =>
    rw [List.dropWhile_cons] at h
    by_cases hx : p x = true
    · rw [if_pos hx] at h
      exact ih h
    · rw [if_neg hx] at h
      injection h with h1 _
      subst h1
      exact Bool.not_eq_true _ ▸ (by simpa using hx)

/-- Inversion of `loadBody`: a successful body is an opening quote, the
non-empty `)`-free capture, a closing quote, and `)`. -/
lemma loadBody_eq_some (xs cap tail : List Char)
    (h : loadBody xs = some (cap, tail)) :
    ∃ q1 q2, xs = q1 :: cap ++ [q2, ')'] ++ tail ∧
      isQuote q1 = true ∧ isQuote q2 = true ∧ cap ≠ [] ∧ ')' ∉ cap := by
  unfold loadBody at h
  split at h
  · cases h
  · rename_i q1 rest
    simp only at h
    split at h
    · rename_i hcond
      injection h with h
      injection h with hcap htail
      simp only [Bool.and_eq_true] at hcond
      obtain ⟨⟨⟨hq1, hlen⟩, hlast⟩, hne⟩ := hcond
      set run := rest.takeWhile (fun c => decide (c ≠ ')')) with hrun
      set after := rest.dropWhile (fun c => decide (c ≠ ')')) with hafter
      have hlen2 : 2 ≤ run.length := by simpa using hlen
      have hrunne : run ≠ [] := by
        intro hc
        rw [hc] at hlen2
        simp at hlen2
      obtain ⟨a, t, hat⟩ : ∃ a t, after = a :: t := by
        cases hae : after with
        | nil => rw [hae] at hne; simp at hne
        | cons a t => exact ⟨a, t, rfl⟩
      have ha : a = ')' := by
        have := head_dropWhile_false _ rest a t (by rw [← hafter, hat])
        simpa using this
      have hsplit : rest = run ++ after := by
        rw [hrun, hafter]
        exact (List.takeWhile_append_dropWhile (fun c => decide (c ≠ ')')) rest).symm
      have hrunlast : run = run.dropLast ++ [run.getLastD ' '] := by
        cases hrc : run.reverse with
        | nil => exact absurd (by simpa using congrArg List.reverse hrc) hrunne
        | cons b bs =>
          have : run = bs.reverse ++ [b] := by
            have := congrArg List.reverse hrc
            simpa using this
          rw [this]
          simp [List.getLastD_concat]
      refine ⟨q1, run.getLastD ' ', ?_, hq1, hlast, ?_, ?_⟩
      · rw [hsplit, hat, ha]
        subst hcap
        subst htail
        rw [hat]
        conv_lhs => rw [hrunlast]
        simp
      · subst hcap
        intro hc
        rw [hc] at hrunlast
        simp at hrunlast
        rw [hrunlast] at hlen2
        simp at hlen2
      · subst hcap
        intro hc
        have hmem : ')' ∈ run := List.dropLast_subset run hc
        have := mem_of_mem_takeWhile _ rest ')' (hrun ▸ hmem)
        simp at this
    · cases h

/-- Inversion of `tryLoadAt`. -/
lemma tryLoadAt_eq_some (cs : List Char) (pre : Bool) (cap rest : List Char)
    (h : tryLoadAt cs = some (pre, cap, rest)) :
    ∃ q1 q2, cs = patChars pre ++ q1 :: cap ++ [q2, ')'] ++ rest ∧
      isQuote q1 = true ∧ isQuote q2 = true ∧ cap ≠ [] ∧ ')' ∉ cap := by
  unfold tryLoadAt at h
  split at h
  · rename_i hpre
    rcases Option.map_eq_some'.mp h with ⟨⟨cap0, rest0⟩, hbody, heq⟩
    injection heq with h1 h2
    injection h2 with h2 h3
    subst h1
    subst h2
    subst h3
    obtain ⟨t, ht⟩ : ∃ t, cs = patChars true ++ t := by
      have := List.isPrefixOf_iff_prefix.mp hpre
      exact this.imp (fun t h => h.symm)
    have hdrop : cs.drop 8 = t := by
      rw [ht, show (8 : Nat) = (patChars true).length from rfl, List.drop_left]
    rw [hdrop] at hbody
    obtain ⟨q1, q2, hxs, hq1, hq2, hne, hnp⟩ := loadBody_eq_some t cap0 rest0 hbody
    exact ⟨q1, q2, by rw [ht, hxs]; simp, hq1, hq2, hne, hnp⟩
  · split at h
    · rename_i hpre
      rcases Option.map_eq_some'.mp h with ⟨⟨cap0, rest0⟩, hbody, heq⟩
      injection heq with h1 h2
      injection h2 with h2 h3
      subst h1
      subst h2
      subst h3
      obtain ⟨t, ht⟩ : ∃ t, cs = patChars false ++ t := by
        have := List.isPrefixOf_iff_prefix.mp hpre
        exact this.imp (fun t h => h.symm)
      have hdrop : cs.drop 5 = t := by
        rw [ht, show (5 : Nat) = (patChars false).length from rfl, List.drop_left]
      rw [hdrop] at hbody
      obtain ⟨q1, q2, hxs, hq1, hq2, hne, hnp⟩ := loadBody_eq_some t cap0 rest0 hbody
      exact ⟨q1, q2, by rw [ht, hxs]; simp, hq1, hq2, hne, hnp⟩
    · cases h

lemma tryLoadAt_rest_length (cs : List Char) (pre : Bool) (cap rest : List Char)
    (h : tryLoadAt cs = some (pre, cap, rest)) : rest.length + 9 ≤ cs.length := by
  obtain ⟨q1, q2, hcs, _, _, hne, _⟩ := tryLoadAt_eq_some cs pre cap rest h
  have hcap : 1 ≤ cap.length := List.length_pos.mpr hne
  have hpat : 5 ≤ (patChars pre).length := by cases pre <;> decide
  rw [hcs]
  simp [List.length_append]
  omega

/-- The script-load pattern matches at the start of a site-shaped text:
after the pattern head and an opening quote, a `)`-free run that ends with a
quote and is followed by `)` is captured greedily. -/
lemma tryLoadAt_at_run (pf : Bool) (q1 : Char) (u w : List Char)
    (hq1 : isQuote q1 = true) (hu : ')' ∉ u)
    (hshape : ∃ v qe, u = v ++ [qe] ∧ isQuote qe = true ∧ v ≠ []) :
    tryLoadAt (patChars pf ++ (q1 :: (u ++ ')' :: w))) = some (pf, u.dropLast, w) := by
  obtain ⟨v, qe, hu_eq, hqe, hv⟩ := hshape
  have hall : ∀ x ∈ u, (fun c => decide (c ≠ ')')) x = true := by
    intro x hx
    simp only [decide_eq_true_eq]
    intro hc
    exact hu (hc ▸ hx)
  have hdw : (u ++ ')' :: w).dropWhile (fun c => decide (c ≠ ')')) = ')' :: w := by
    rw [dropWhile_append_all _ u _ hall]
    simp [List.dropWhile_cons]
  have htw : (u ++ ')' :: w).takeWhile (fun c => decide (c ≠ ')')) = u := by
    rw [takeWhile_append_all _ u _ hall]
    simp [List.takeWhile_cons]
  have hbody : loadBody (q1 :: (u ++ ')' :: w)) = some (u.dropLast, w) := by
    simp only [loadBody]
    rw [htw, hdw]
    have hlen : decide (2 ≤ u.length) = true := by
      rw [hu_eq]
      have h1 : 1 ≤ v.length := List.length_pos.mpr hv
      simp only [List.length_append, List.length_cons, List.length_nil,
        decide_eq_true_eq]
      omega
    have hlast : u.getLastD ' ' = qe := by
      rw [hu_eq]
      simp [List.getLastD_concat]
    rw [hq1, hlast, hqe, hlen]
    simp
  cases pf with
  | true =>
    unfold tryLoadAt
    rw [isPrefixOf_append_self (patChars true) (q1 :: (u ++ ')' :: w))]
    simp only [if_true]
    rw [show (8 : Nat) = (patChars true).length from rfl, List.drop_left]
    rw [hbody]
    rfl
  | false =>
    unfold tryLoadAt
    have hnotpre : (patChars true).isPrefixOf
        (patChars false ++ (q1 :: (u ++ ')' :: w))) = false := by
      show (patChars true).isPrefixOf ('l' :: _) = false
      simp [patChars, List.isPrefixOf]
    rw [hnotpre]
    simp only [Bool.false_eq_true, if_false]
    rw [isPrefixOf_append_self (patChars false) (q1 :: (u ++ ')' :: w))]
    simp only [if_true]
    rw [show (5 : Nat) = (patChars false).length from rfl, List.drop_left]
    rw [hbody]
    rfl

/-- The script-load pattern matches a canonical site. -/
lemma tryLoadAt_at_site (pf : Bool) (q1 q2 : Char) (cap w : List Char)
    (hq1 : isQuote q1 = true) (hq2 : isQuote q2 = true)
    (hcap : cap ≠ []) (hnp : ')' ∉ cap) :
    tryLoadAt (patChars pf ++ (q1 :: (cap ++ [q2, ')'] ++ w))) = some (pf, cap, w) := by
  have h := tryLoadAt_at_run pf q1 (cap ++ [q2]) w hq1
    (by
      intro hc
      rcases List.mem_append.mp hc with hc | hc
      · exact hnp hc
      · simp at hc
        rw [← hc] at hq2
        exact absurd hq2 (by decide))
    ⟨cap, q2, rfl, hq2, hcap⟩
  have heq : patChars pf ++ (q1 :: ((cap ++ [q2]) ++ ')' :: w))
      = patChars pf ++ (q1 :: (cap ++ [q2, ')'] ++ w)) := by
    simp
  rw [heq] at h
  rw [h]
  have hdl : (cap ++ [q2]).dropLast = cap := by simp
  rw [hdl]

lemma tryLoadAt_nil : tryLoadAt [] = none := by decide

section RwLemmas

variable (fsEx : List PComp → Bool) (cwd : List PComp) (dm : List (String × String))

lemma rwScript_fuel_irrel :
    ∀ (f1 : Nat) (cs : List Char) (f2 : Nat), cs.length ≤ f1 → cs.length ≤ f2 →
      rwScript fsEx cwd dm f1 cs = rwScript fsEx cwd dm f2 cs := by
  intro f1
  induction f1 with
  | zero =>
    intro cs f2 h1 _
    have hcs : cs = [] := List.length_eq_zero.mp (Nat.le_zero.mp h1)
    subst hcs
    cases f2 <;> rfl
  | succ f1 ih =>
    intro cs f2 h1 h2
    cases cs with
    | nil => cases f2 <;> rfl
    | cons c cs =>
      cases f2 with
      | zero => simp at h2
      | succ g =>
        show (match tryLoadAt (c :: cs) with
          | some (pre, cap, rest) =>
            scriptReplacement fsEx cwd dm pre cap ++ rwScript fsEx cwd dm f1 rest
          | none => c :: rwScript fsEx cwd dm f1 cs) = (match tryLoadAt (c :: cs) with
          | some (pre, cap, rest) =>
            scriptReplacement fsEx cwd dm pre cap ++ rwScript fsEx cwd dm g rest
          | none => c :: rwScript fsEx cwd dm g cs)
        cases ht : tryLoadAt (c :: cs) with
        | none =>
          dsimp only
          have hlen : cs.length ≤ f1 := by
            simp only [List.length_cons] at h1
            omega
          have hlen2 : cs.length ≤ g := by
            simp only [List.length_cons] at h2
            omega
          rw [ih cs g hlen hlen2]
        | some pr =>
          rcases pr with ⟨pre, cap, rest⟩
          dsimp only
          have hrl := tryLoadAt_rest_length (c :: cs) pre cap rest ht
          simp only [List.length_cons] at h1 h2 hrl
          have hlen : rest.length ≤ f1 := by omega
          have hlen2 : rest.length ≤ g := by omega
          rw [ih rest g hlen hlen2]

lemma rwFull_nil : rwFull fsEx cwd dm [] = [] := rfl

lemma rwFull_cons_none (c : Char) (cs : List Char)
    (h : tryLoadAt (c :: cs) = none) :
    rwFull fsEx cwd dm (c :: cs) = c :: rwFull fsEx cwd dm cs := by
  show (match tryLoadAt (c :: cs) with
    | some (pre, cap, rest) =>
      scriptReplacement fsEx cwd dm pre cap ++ rwScript fsEx cwd dm cs.length rest
    | none => c :: rwScript fsEx cwd dm cs.length cs) = _
  rw [h]
  dsimp only
  rfl

lemma rwFull_match (xs : List Char) (pre : Bool) (cap rest : List Char)
    (h : tryLoadAt xs = some (pre, cap, rest)) :
    rwFull fsEx cwd dm xs
      = scriptReplacement fsEx cwd dm pre cap ++ rwFull fsEx cwd dm rest := by
  cases xs with
  | nil => rw [tryLoadAt_nil] at h; cases h
  | cons c cs =>
    show (match tryLoadAt (c :: cs) with
      | some (pre, cap, rest) =>
        scriptReplacement fsEx cwd dm pre cap ++ rwScript fsEx cwd dm cs.length rest
      | none => c :: rwScript fsEx cwd dm cs.length cs) = _
    rw [h]
    dsimp only
    have hrl := tryLoadAt_rest_length (c :: cs) pre cap rest h
    simp only [List.length_cons] at hrl
    rw [rwScript_fuel_irrel fsEx cwd dm cs.length rest rest.length (by omega) (le_refl _)]
    rfl

end RwLemmas

lemma quote_ne_rparen (c : Char) (h : isQuote c = true) : c ≠ ')' := by
  intro hc
  rw [hc] at h
  exact absurd h (by decide)

lemma append_singleton_inj {α : Type} (A B : List α) (a b : α)
    (h : A ++ [a] = B ++ [b]) : A = B ∧ a = b := by
  have := List.append_inj' h rfl
  exact ⟨this.1, by injection this.2⟩

/-- Central boundary lemma for idempotence: if the script-load pattern does
not match at the head of `gap ++ site₁ ++ tail₁`, it does not match at the
head of `gap ++ site₂ ++ tail₂` either, for any two canonical sites with
the same `pre` flag.  A head match of the second text is converted into a
head match of the first. -/
lemma site_swap (l : List Char) (pf : Bool)
    (q1 q2 q1' q2' : Char) (c1 c2 T1 T2 : List Char)
    (hq1 : isQuote q1 = true) (hq2 : isQuote q2 = true) (hc1 : c1 ≠ []) (hp1 : ')' ∉ c1)
    (hq1' : isQuote q1' = true)
    (hnone : tryLoadAt (l ++ (patChars pf ++ (q1 :: (c1 ++ [q2, ')'] ++ T1)))) = none) :
    tryLoadAt (l ++ (patChars pf ++ (q1' :: (c2 ++ [q2', ')'] ++ T2)))) = none := by
  cases hB : tryLoadAt (l ++ (patChars pf ++ (q1' :: (c2 ++ [q2', ')'] ++ T2)))) with
  | none => rfl
  | some trip =>
    exfalso
    rcases trip with ⟨pfB, capB, restB⟩
    obtain ⟨qa, qb, hE, hqa, hqb, hcapB, hpB⟩ :=
      tryLoadAt_eq_some _ pfB capB restB hB
    -- Normalize both descriptions of the same text.
    have hEn : l ++ (patChars pf ++ (q1' :: (c2 ++ (q2' :: ')' :: T2))))
        = patChars pfB ++ (qa :: (capB ++ (qb :: ')' :: restB))) := by
      have := hE
      simp only [List.append_assoc, List.cons_append, List.singleton_append,
        List.nil_append] at this ⊢
      exact this
    -- The main sub-proof: the gap extends past the whole pattern head and
    -- opening quote of the match.
    have caseA : ∀ lrest, l = patChars pfB ++ (qa :: lrest) → False := by
      intro lrest hl_eq
      have hcancel : lrest ++ (patChars pf ++ (q1' :: (c2 ++ (q2' :: ')' :: T2))))
          = capB ++ (qb :: ')' :: restB) := by
        rw [hl_eq] at hEn
        simp only [List.append_assoc, List.cons_append] at hEn
        have h2 := List.append_cancel_left hEn
        rw [List.cons.injEq] at h2
        simpa [List.append_assoc] using h2.2
      by_cases hpl : ')' ∈ lrest
      · -- the match closes inside the gap: the first text matches the same way
        obtain ⟨u0, w0, hu0_eq, hu0⟩ := exists_first_occurrence ')' lrest hpl
        have hfirst : u0 ++ ')' :: (w0 ++ (patChars pf ++ (q1' :: (c2 ++ (q2' :: ')' :: T2)))))
            = (capB ++ [qb]) ++ ')' :: restB := by
          rw [hu0_eq] at hcancel
          simpa [List.append_assoc] using hcancel
        obtain ⟨hu0c, -⟩ := first_occurrence_unique ')' u0 (capB ++ [qb]) _ _ hu0
          (by
            intro hc
            rcases List.mem_append.mp hc with hc | hc
            · exact hpB hc
            · simp at hc
              exact quote_ne_rparen qb hqb hc.symm) hfirst
        have hmatch := tryLoadAt_at_run pfB qa u0
          (w0 ++ (patChars pf ++ (q1 :: (c1 ++ (q2 :: ')' :: T1))))) hqa hu0
          ⟨capB, qb, hu0c, hqb, hcapB⟩
        have hArw : l ++ (patChars pf ++ (q1 :: (c1 ++ [q2, ')'] ++ T1)))
            = patChars pfB ++ (qa :: (u0 ++ ')' ::
                (w0 ++ (patChars pf ++ (q1 :: (c1 ++ (q2 :: ')' :: T1))))))) := by
          rw [hl_eq, hu0_eq]
          simp [List.append_assoc]
        rw [hArw, hmatch] at hnone
        cases hnone
      · -- the match closes at the end of the second site; build the
        -- corresponding match on the first site
        have hmatch := tryLoadAt_at_run pfB qa
          (lrest ++ (patChars pf ++ (q1 :: c1)) ++ [q2]) T1 hqa
          (by
            intro hc
            rcases List.mem_append.mp hc with hc | hc
            · rcases List.mem_append.mp hc with hc | hc
              · exact hpl hc
              · rcases List.mem_append.mp hc with hc | hc
                · exact absurd hc (patChars_no_paren pf)
                · rcases List.mem_cons.mp hc with hc | hc
                  · exact quote_ne_rparen q1 hq1 hc.symm
                  · exact hp1 hc
            · simp at hc
              exact quote_ne_rparen q2 hq2 hc.symm)
          ⟨lrest ++ (patChars pf ++ (q1 :: c1)), q2, rfl, hq2, by simp⟩
        have hArw : l ++ (patChars pf ++ (q1 :: (c1 ++ [q2, ')'] ++ T1)))
            = patChars pfB ++ (qa ::
                ((lrest ++ (patChars pf ++ (q1 :: c1)) ++ [q2]) ++ ')' :: T1)) := by
          rw [hl_eq]
          simp [List.append_assoc]
        rw [hArw, hmatch] at hnone
        cases hnone
    -- The aligned sub-proof: the pattern head of the match is the gap plus
    -- the site's own pattern head.
    have caseAligned : patChars pfB = l ++ patChars pf → False := by
      intro halign
      have hmatch := tryLoadAt_at_site pfB q1 q2 c1 T1 hq1 hq2 hc1 hp1
      have hArw : l ++ (patChars pf ++ (q1 :: (c1 ++ [q2, ')'] ++ T1)))
          = patChars pfB ++ (q1 :: (c1 ++ [q2, ')'] ++ T1)) := by
        rw [halign]
        simp [List.append_assoc]
      rw [hArw, hmatch] at hnone
      cases hnone
    -- Case split on the relative position of the match's opening quote.
    have hpre1 : (patChars pfB ++ [qa]) <+: (l ++ (patChars pf ++ (q1' :: (c2 ++ (q2' :: ')' :: T2))))) := by
      rw [hEn]
      exact ⟨capB ++ (qb :: ')' :: restB), by simp [List.append_assoc]⟩
    have hpre3 : l <+: (l ++ (patChars pf ++ (q1' :: (c2 ++ (q2' :: ')' :: T2))))) :=
      ⟨_, rfl⟩
    rcases List.prefix_or_prefix_of_prefix hpre1 hpre3 with hA | hA
    · obtain ⟨lrest, hlrest⟩ := hA
      exact caseA lrest (by rw [← hlrest]; simp)
    · obtain ⟨y, hy⟩ := hA
      cases y with
      | nil =>
        exact caseA [] (by simpa using hy)
      | cons y0 ys =>
        -- l is strictly shorter than the matched pattern head plus quote
        have hpre2 : (l ++ patChars pf ++ [q1']) <+:
            (l ++ (patChars pf ++ (q1' :: (c2 ++ (q2' :: ')' :: T2))))) :=
          ⟨c2 ++ (q2' :: ')' :: T2), by simp [List.append_assoc]⟩
        rcases List.prefix_or_prefix_of_prefix hpre2 hpre1 with hC | hC
        · obtain ⟨z, hz⟩ := hC
          cases z with
          | nil =>
            -- aligned: the two heads coincide
            have hzz : (l ++ patChars pf) ++ [q1'] = patChars pfB ++ [qa] := by
              simpa [List.append_assoc] using hz
            obtain ⟨h1, _⟩ := append_singleton_inj _ _ _ _ hzz
            exact caseAligned h1.symm
          | cons z0 zs =>
            -- the quote q1' would lie strictly inside the pattern head
            have hne : (z0 :: zs) ≠ [] := by simp
            have hzz : ((l ++ patChars pf ++ [q1']) ++ (z0 :: zs).dropLast)
                ++ [(z0 :: zs).getLast hne] = patChars pfB ++ [qa] := by
              rw [List.append_assoc (l ++ patChars pf ++ [q1']),
                List.dropLast_append_getLast hne]
              exact hz
            have h1 := (append_singleton_inj _ _ _ _ hzz).1
            have hmem : q1' ∈ patChars pfB := by
              rw [← h1]
              simp
            have := patChars_no_quote pfB q1' hmem
            rw [hq1'] at this
            cases this
        · obtain ⟨z, hz⟩ := hC
          cases z with
          | nil =>
            have hzz : patChars pfB ++ [qa] = (l ++ patChars pf) ++ [q1'] := by
              simpa [List.append_assoc] using hz
            obtain ⟨h1, _⟩ := append_singleton_inj _ _ _ _ hzz
            exact caseAligned h1
          | cons z0 zs =>
            -- qa would lie strictly inside l ++ patChars pf; the tail of the
            -- match's pattern head places qa inside patChars pf
            have hne : (z0 :: zs) ≠ [] := by simp
            have hzz : ((patChars pfB ++ [qa]) ++ (z0 :: zs).dropLast)
                ++ [(z0 :: zs).getLast hne] = (l ++ patChars pf) ++ [q1'] := by
              rw [List.append_assoc (patChars pfB ++ [qa]),
                List.dropLast_append_getLast hne]
              simpa [List.append_assoc] using hz
            have h1 := (append_singleton_inj _ _ _ _ hzz).1
            -- h1 : (patChars pfB ++ [qa]) ++ (z0 :: zs).dropLast = l ++ patChars pf
            have hne2 : (y0 :: ys) ≠ [] := by simp
            have hyy : (l ++ (y0 :: ys).dropLast) ++ [(y0 :: ys).getLast hne2]
                = patChars pfB ++ [qa] := by
              rw [List.append_assoc, List.dropLast_append_getLast hne2]
              exact hy
            obtain ⟨h2, -⟩ := append_singleton_inj _ _ _ _ hyy
            -- h2 : l ++ (y0 :: ys).dropLast = patChars pfB
            have h5 : l ++ ((y0 :: ys).dropLast ++ ([qa] ++ (z0 :: zs).dropLast))
                = l ++ patChars pf := by
              have := h1
              rw [← h2] at this
              simpa [List.append_assoc] using this
            have h6 := List.append_cancel_left h5
            have hmem : qa ∈ patChars pf := by
              rw [← h6]
              simp
            have := patChars_no_quote pf qa hmem
            rw [hqa] at this
            cases this

lemma splitSlash_slashfree (xs : List Char) (h : '/' ∉ xs) : splitSlash xs = [xs] := by
  induction xs with
  | nil => rfl
  | cons c rest ih =>
    have hc : c ≠ '/' := fun hc => h (hc ▸ List.mem_cons_self c rest)
    have hr : '/' ∉ rest := fun hr => h (List.mem_cons_of_mem _ hr)
    unfold splitSlash
    rw [if_neg hc, ih hr]

lemma splitSlash_append_slashfree (xs ys : List Char) (h : '/' ∉ xs) :
    splitSlash (xs ++ '/' :: ys) = xs :: splitSlash ys := by
  induction xs with
  | nil =>
    simp [splitSlash]
  | cons c rest ih =>
    have hc : c ≠ '/' := fun hc => h (hc ▸ List.mem_cons_self c rest)
    have hr : '/' ∉ rest := fun hr => h (List.mem_cons_of_mem _ hr)
    show splitSlash (c :: (rest ++ '/' :: ys)) = _
    simp [splitSlash, hc, ih hr]

lemma splitSlash_chars (cs : List Char) : ∀ s ∈ splitSlash cs, ∀ x ∈ s, x ∈ cs := by
  induction cs with
  | nil =>
    intro s hs x hx
    simp [splitSlash] at hs
    subst hs
    cases hx
  | cons c rest ih =>
    intro s hs x hx
    unfold splitSlash at hs
    by_cases hc : c = '/'
    · rw [if_pos hc] at hs
      rcases List.mem_cons.mp hs with rfl | hs
      · cases hx
      · exact List.mem_cons_of_mem _ (ih s hs x hx)
    · rw [if_neg hc] at hs
      rcases hss : splitSlash rest with _ | ⟨t, ts⟩
      · rw [hss] at hs
        simp at hs
        subst hs
        simp at hx
        subst hx
        exact List.mem_cons_self _ _
      · rw [hss] at hs
        rcases List.mem_cons.mp hs with rfl | hs2
        · rcases List.mem_cons.mp hx with rfl | hx2
          · exact List.mem_cons_self _ _
          · exact List.mem_cons_of_mem _
              (ih t (by rw [hss]; exact List.mem_cons_self _ _) x hx2)
        · exact List.mem_cons_of_mem _
            (ih s (by rw [hss]; exact List.mem_cons_of_mem _ hs2) x hx)

lemma goodComp_osStr_ne_nil (c : PComp) (h : goodComp c) : c.osStr.data ≠ [] := by
  rcases h with rfl | ⟨n, rfl, hn1, _, _, _⟩
  · simp [PComp.osStr]
  · simpa [PComp.osStr] using hn1

lemma goodComp_osStr_ne_dot (c : PComp) (h : goodComp c) : c.osStr.data ≠ ['.'] := by
  rcases h with rfl | ⟨n, rfl, _, hn2, _, _⟩
  · simp [PComp.osStr]
  · simpa [PComp.osStr] using hn2

lemma goodComp_osStr_no_slash (c : PComp) (h : goodComp c) : '/' ∉ c.osStr.data := by
  rcases h with rfl | ⟨n, rfl, _, _, _, hn4⟩
  · simp [PComp.osStr]
  · simpa [PComp.osStr] using hn4

lemma goodComp_roundtrip (c : PComp) (h : goodComp c) :
    (if c.osStr.data = ['.', '.'] then PComp.parentDir else PComp.normal c.osStr.data)
      = c := by
  rcases h with rfl | ⟨n, rfl, _, _, hn3, _⟩
  · simp [PComp.osStr]
  · simp [PComp.osStr, hn3]

lemma renderComps_cons (c : PComp) (r : List PComp) (hr : r ≠ []) :
    renderComps (c :: r) = c.osStr.data ++ '/' :: renderComps r := by
  cases r with
  | nil => exact absurd rfl hr
  | cons a t => rfl

lemma splitSlash_renderComps (res : List PComp) (h : ∀ c ∈ res, goodComp c)
    (hne : res ≠ []) :
    splitSlash (renderComps res) = res.map (fun c => c.osStr.data) := by
  induction res with
  | nil => exact absurd rfl hne
  | cons c r ih =>
    have hcg := h c (List.mem_cons_self c r)
    cases r with
    | nil =>
      show splitSlash (renderComps [c]) = [c.osStr.data]
      have hrc : renderComps [c] = c.osStr.data := rfl
      rw [hrc, splitSlash_slashfree _ (goodComp_osStr_no_slash c hcg)]
    | cons a t =>
      rw [renderComps_cons c (a :: t) (by simp),
        splitSlash_append_slashfree _ _ (goodComp_osStr_no_slash c hcg),
        ih (fun x hx => h x (List.mem_cons_of_mem _ hx)) (by simp)]
      rfl

lemma map_roundtrip_good (L : List PComp) (h : ∀ c ∈ L, goodComp c) :
    (L.map (fun c => c.osStr.data)).map
      (fun s => if s = ['.', '.'] then PComp.parentDir else PComp.normal s) = L := by
  induction L with
  | nil => rfl
  | cons c r ih =>
    simp only [List.map_cons]
    rw [goodComp_roundtrip c (h c (List.mem_cons_self c r)),
      ih (fun x hx => h x (List.mem_cons_of_mem _ hx))]

/-- Re-parsing `res://` plus a rendered good component list yields the
`res:` component followed by exactly the original components. -/
lemma componentsOf_res_render (res : List PComp) (h : ∀ c ∈ res, goodComp c) :
    componentsOf (['r', 'e', 's', ':', '/', '/'] ++ renderComps res)
      = resComp :: res := by
  have hsplit : splitSlash (['r', 'e', 's', ':', '/', '/'] ++ renderComps res)
      = ['r', 'e', 's', ':'] :: [] :: splitSlash (renderComps res) := by
    show splitSlash (['r', 'e', 's', ':'] ++ '/' :: ('/' :: renderComps res)) = _
    rw [splitSlash_append_slashfree ['r', 'e', 's', ':'] _ (by decide)]
    congr 1
  cases hres : res with
  | nil =>
    subst hres
    simp only [componentsOf, pathSegs]
    rw [hsplit]
    simp [List.filter, resComp, renderComps, splitSlash]
  | cons c0 r0 =>
    have hne : res ≠ [] := by rw [hres]; simp
    rw [← hres]
    simp only [componentsOf, pathSegs]
    rw [hsplit, splitSlash_renderComps res h hne]
    have hfilter : (List.filter (fun s => decide (s ≠ [] ∧ s ≠ ['.']))
        (['r', 'e', 's', ':'] :: [] :: res.map (fun c => c.osStr.data)))
        = ['r', 'e', 's', ':'] :: res.map (fun c => c.osStr.data) := by
      rw [List.filter_cons_of_pos (by decide), List.filter_cons_of_neg (by decide)]
      congr 1
      rw [List.filter_eq_self]
      intro a ha
      rcases List.mem_map.mp ha with ⟨x, hx, rfl⟩
      simp only [ne_eq, decide_eq_true_eq]
      exact ⟨goodComp_osStr_ne_nil x (h x hx), goodComp_osStr_ne_dot x (h x hx)⟩
    rw [hfilter]
    simp only [List.map_cons]
    rw [map_roundtrip_good res h]
    simp [resComp]

lemma pathSegs_good (cs : List Char) :
    ∀ s ∈ pathSegs cs, s ≠ [] ∧ s ≠ ['.'] ∧ '/' ∉ s := by
  intro s hs
  unfold pathSegs at hs
  rw [List.mem_filter] at hs
  obtain ⟨hmem, hp⟩ := hs
  simp only [ne_eq, decide_eq_true_eq] at hp
  exact ⟨hp.1, hp.2, splitSlash_no_slash cs s hmem⟩

lemma componentsOf_mapPart_good (cs : List Char) :
    ∀ c ∈ (pathSegs cs).map
      (fun s => if s = ['.', '.'] then PComp.parentDir else PComp.normal s),
      goodComp c := by
  intro c hc
  rw [List.mem_map] at hc
  obtain ⟨s, hs, rfl⟩ := hc
  obtain ⟨h1, h2, h3⟩ := pathSegs_good cs s hs
  by_cases hdd : s = ['.', '.']
  · rw [if_pos hdd]
    exact Or.inl rfl
  · rw [if_neg hdd]
    exact Or.inr ⟨s, rfl, h1, h2, hdd, h3⟩

lemma componentsOf_drop_good (cs : List Char) :
    ∀ c ∈ (componentsOf cs).drop 1, goodComp c := by
  intro c hc
  have hmap := componentsOf_mapPart_good cs
  simp only [componentsOf] at hc
  cases hm : (match cs with | '/' :: _ => true | _ => false) with
  | true =>
    rw [hm] at hc
    simp only [Bool.not_true, Bool.false_and, if_true, if_false,
      List.append_nil, List.singleton_append, List.drop_succ_cons,
      List.drop_zero] at hc
    exact hmap c hc
  | false =>
    rw [hm] at hc
    by_cases hcur : (cs = ['.'] || (cs.take 2 = ['.', '/'])) = true
    · rw [hcur] at hc
      simp only [Bool.not_false, Bool.true_and, if_false, if_true,
        List.nil_append, List.singleton_append, List.drop_succ_cons,
        List.drop_zero] at hc
      exact hmap c hc
    · rw [Bool.eq_false_iff.mpr hcur] at hc
      simp only [Bool.not_false, Bool.true_and, if_false, List.nil_append] at hc
      exact hmap c (List.mem_of_mem_drop hc)

lemma componentsOf_chars (cs : List Char) (bad : Char) (h : bad ∉ cs) :
    ∀ c ∈ componentsOf cs, compNoChar bad c := by
  intro c hc n hn
  subst hn
  unfold componentsOf at hc
  simp only [List.mem_append] at hc
  rcases hc with hc | hc
  · rcases hc with hc | hc
    · split at hc <;> simp_all
    · split at hc <;> simp_all
  · simp only [List.mem_map] at hc
    obtain ⟨s, hs, hmap⟩ := hc
    by_cases hdd : s = ['.', '.']
    · simp [hdd] at hmap
    · simp [hdd] at hmap
      subst hmap
      intro hmem
      have hsub := splitSlash_chars cs s
        (List.mem_of_mem_filter (by unfold pathSegs at hs; exact hs))
      exact h (hsub bad hmem)

lemma renderComps_no_char (bad : Char) (h1 : bad ≠ '/') (h2 : bad ≠ '.')
    (res : List PComp) (h : ∀ c ∈ res, compNoChar bad c) :
    bad ∉ renderComps res := by
  induction res with
  | nil => simp [renderComps]
  | cons c r ih =>
    have hosStr : bad ∉ c.osStr.data := by
      cases c with
      | normal n => exact h _ (List.mem_cons_self _ _) n rfl
      | curDir =>
        intro hm
        simp [PComp.osStr] at hm
        exact h2 hm
      | parentDir =>
        intro hm
        simp [PComp.osStr] at hm
        exact h2 hm
      | rootDir =>
        intro hm
        simp [PComp.osStr] at hm
        exact h1 hm
      | winPrefix => simp [PComp.osStr]
    cases r with
    | nil => simpa [renderComps] using hosStr
    | cons a t =>
      rw [renderComps_cons c (a :: t) (by simp)]
      intro hm
      rcases List.mem_append.mp hm with hm | hm
      · exact hosStr hm
      · rcases List.mem_cons.mp hm with hm | hm
        · exact h1 hm
        · exact ih (fun x hx => h x (List.mem_cons_of_mem _ hx)) hm

lemma stripResComps_eq_some (p r : List PComp) (h : stripResComps p = some r) :
    p = resComp :: r := by
  cases p with
  | nil => cases h
  | cons c rest =>
    unfold stripResComps at h
    dsimp only at h
    by_cases hc : c = resComp
    · rw [if_pos hc] at h
      injection h with h
      rw [hc, h]
    · rw [if_neg hc] at h
      cases h

section StabilityLemmas

variable (fsEx : List PComp → Bool) (cwd : List PComp) (dm : List (String × String))

lemma modify_load_cases (path : List PComp) :
    modify_load fsEx path cwd dm = path ∨
    ∃ c1 v, path.get? 1 = some c1 ∧ List.lookup c1.osStr dm = some v ∧
      modify_load fsEx path cwd dm = componentsOf v.data ++ path.drop 2 := by
  by_cases hex : (fsEx path || fsEx (pathJoin cwd path)) = true
  · exact Or.inl (by simp [modify_load, hex])
  · rw [Bool.not_eq_true] at hex
    cases hg : path.get? 1 with
    | none =>
      have hg2 : path[1]? = none := by rw [← List.get?_eq_getElem?]; exact hg
      exact Or.inl (by simp [modify_load, hex, hg2])
    | some c1 =>
      have hg2 : path[1]? = some c1 := by rw [← List.get?_eq_getElem?]; exact hg
      cases hlk : List.lookup c1.osStr dm with
      | none => exact Or.inl (by simp [modify_load, hex, hg2, hlk])
      | some v =>
        exact Or.inr ⟨c1, v, rfl, hlk, by simp [modify_load, hex, hg2, hlk]⟩

lemma modify_load_no_char (bad : Char)
    (hbadV : ∀ k v, List.lookup k dm = some v → bad ∉ v.data)
    (stripped : List PComp) (hstr : ∀ c ∈ stripped, compNoChar bad c) :
    ∀ c ∈ modify_load fsEx stripped cwd dm, compNoChar bad c := by
  rcases modify_load_cases fsEx cwd dm stripped with heq | ⟨c1, v, _, hlk, heq⟩
  · rw [heq]
    exact hstr
  · rw [heq]
    intro c hc
    rcases List.mem_append.mp hc with hc | hc
    · exact componentsOf_chars v.data bad (hbadV _ v hlk) c hc
    · exact hstr c (List.mem_of_mem_drop hc)

lemma newCap_def (cap : List Char) :
    newCap fsEx cwd dm cap
      = (if modify_load fsEx
            (match stripResComps (componentsOf cap) with
              | some r => r
              | none => componentsOf cap) cwd dm = componentsOf cap
         then cap
         else ['r', 'e', 's', ':', '/', '/'] ++ renderComps (modify_load fsEx
            (match stripResComps (componentsOf cap) with
              | some r => r
              | none => componentsOf cap) cwd dm)) := by
  simp only [newCap]

lemma scriptReplacement_eq (pre : Bool) (cap : List Char) :
    scriptReplacement fsEx cwd dm pre cap
      = patChars pre ++ '\'' :: (newCap fsEx cwd dm cap ++ ['\'', ')']) := by
  simp only [scriptReplacement, newCap]
  by_cases h : modify_load fsEx
      (match stripResComps (componentsOf cap) with
        | some r => r
        | none => componentsOf cap) cwd dm = componentsOf cap
  · cases pre <;> simp [h, patChars]
  · cases pre <;> simp [h, patChars]

lemma newCap_ne_nil (cap : List Char) (hcap : cap ≠ []) :
    newCap fsEx cwd dm cap ≠ [] := by
  simp only [newCap]
  split
  · exact hcap
  · simp

lemma newCap_no_paren (hV : depMapValuesClean dm) (cap : List Char)
    (hnp : ')' ∉ cap) : ')' ∉ newCap fsEx cwd dm cap := by
  simp only [newCap]
  split
  · exact hnp
  · intro hm
    rcases List.mem_append.mp hm with hm | hm
    · simp at hm
    · have hstr : ∀ c ∈ (match stripResComps (componentsOf cap) with
          | some r => r
          | none => componentsOf cap), compNoChar ')' c := by
        have hall := componentsOf_chars cap ')' hnp
        cases hsr : stripResComps (componentsOf cap) with
        | none => exact hall
        | some r =>
          intro c hc
          exact hall c (by
            rw [stripResComps_eq_some _ r hsr]
            exact List.mem_cons_of_mem _ hc)
      have := renderComps_no_char ')' (by decide) (by decide) _
        (modify_load_no_char fsEx cwd dm ')'
          (fun k v hlk => (hV k v hlk).2.1) _ hstr)
      exact this hm

/-- The key stability fact: re-running the script replacement on the capture
it just emitted reproduces the same replacement, provided every mapped
install directory exists on disk (`depMapTargetsExist`) and the map's
values are clean relative paths (`depMapValuesClean`). -/
lemma newCap_stable (hT : depMapTargetsExist fsEx cwd dm)
    (hV : depMapValuesClean dm) (pre : Bool) (cap : List Char) :
    scriptReplacement fsEx cwd dm pre (newCap fsEx cwd dm cap)
      = scriptReplacement fsEx cwd dm pre cap := by
  by_cases h : modify_load fsEx
      (match stripResComps (componentsOf cap) with
        | some r => r
        | none => componentsOf cap) cwd dm = componentsOf cap
  · have hnc : newCap fsEx cwd dm cap = cap := by
      simp [newCap, h]
    rw [hnc]
  · have hnc : newCap fsEx cwd dm cap
        = ['r', 'e', 's', ':', '/', '/'] ++ renderComps (modify_load fsEx
            (match stripResComps (componentsOf cap) with
              | some r => r
              | none => componentsOf cap) cwd dm) := by
      simp [newCap, h]
    -- Abbreviations
    generalize hstrip : (match stripResComps (componentsOf cap) with
        | some r => r
        | none => componentsOf cap) = stripped at h hnc
    generalize hres : modify_load fsEx stripped cwd dm = res at h hnc
    -- goodness of the emitted components
    have hgood : ∀ c ∈ res, goodComp c := by
      rw [← hres]
      rcases modify_load_cases fsEx cwd dm stripped with heq | ⟨c1, v, _, hlk, heq⟩
      · -- modify_load returned its input; the strip must have succeeded
        rw [heq]
        cases hsr : stripResComps (componentsOf cap) with
        | none =>
          exfalso
          apply h
          rw [← hres, heq]
          rw [hsr] at hstrip
          dsimp only at hstrip
          exact hstrip.symm
        | some r =>
          intro c hc
          rw [hsr] at hstrip
          dsimp only at hstrip
          have hmem : c ∈ (componentsOf cap).drop 1 := by
            rw [stripResComps_eq_some _ r hsr]
            simp only [List.drop_succ_cons, List.drop_zero]
            rw [hstrip]
            exact hc
          exact componentsOf_drop_good cap c hmem
      · rw [heq]
        intro c hc
        rcases List.mem_append.mp hc with hc | hc
        · have hnorm := (hV _ v hlk).1 c hc
          cases c with
          | normal n =>
            obtain ⟨h1, h2, h3, h4⟩ :=
              componentsOf_normal_shape v.data _ hc n rfl
            exact Or.inr ⟨n, rfl, h1, h2, h3, h4⟩
          | rootDir => cases hnorm
          | curDir => cases hnorm
          | parentDir => cases hnorm
          | winPrefix => cases hnorm
        · -- a dropped suffix of the stripped path
          have hmem : c ∈ (componentsOf cap).drop 1 := by
            cases hsr : stripResComps (componentsOf cap) with
            | none =>
              rw [hsr] at hstrip
              dsimp only at hstrip
              rw [← hstrip] at hc
              have h21 : (componentsOf cap).drop 2
                  = ((componentsOf cap).drop 1).drop 1 := by
                rw [List.drop_drop]
              rw [h21] at hc
              exact List.mem_of_mem_drop hc
            | some r =>
              rw [hsr] at hstrip
              dsimp only at hstrip
              have hp := stripResComps_eq_some _ r hsr
              rw [← hstrip] at hc
              rw [hp]
              simp only [List.drop_succ_cons, List.drop_zero]
              exact List.mem_of_mem_drop hc
          exact componentsOf_drop_good cap c hmem
    -- the re-parse of the emitted capture
    have hreparse : componentsOf (newCap fsEx cwd dm cap) = resComp :: res := by
      rw [hnc]
      exact componentsOf_res_render res hgood
    -- the second modify_load returns its input
    have hstable : modify_load fsEx res cwd dm = res := by
      rcases modify_load_cases fsEx cwd dm stripped with heq | ⟨c1, v, _, hlk, heq⟩
      · have hrs : res = stripped := by rw [← hres, heq]
        rw [hrs]
        exact heq
      · have hrs : res = componentsOf v.data ++ stripped.drop 2 := by
          rw [← hres, heq]
        rw [hrs]
        have hc := hT c1.osStr v hlk (stripped.drop 2)
        simp [modify_load, hc]
    -- the second application of the closure emits the same capture
    have hfinal : newCap fsEx cwd dm (newCap fsEx cwd dm cap)
        = newCap fsEx cwd dm cap := by
      rw [newCap_def fsEx cwd dm (newCap fsEx cwd dm cap), hreparse]
      have hsr2 : stripResComps (resComp :: res) = some res := by
        simp [stripResComps]
      rw [hsr2]
      dsimp only
      rw [hstable, if_neg (fun hx => (List.cons_ne_self resComp res) hx.symm), hnc]
    rw [scriptReplacement_eq, scriptReplacement_eq, hfinal]

/-- A no-match position survives rewriting of the text to its right: if the
script-load pattern does not match at the start of `l ++ cs`, it does not
match at the start of `l ++ rwFull cs` either. -/
lemma tryLoadAt_gap :
    ∀ (cs l : List Char), tryLoadAt (l ++ cs) = none →
      tryLoadAt (l ++ rwFull fsEx cwd dm cs) = none := by
  intro cs
  induction cs with
  | nil =>
    intro l h
    exact h
  | cons c cs ih =>
    intro l h
    cases ht : tryLoadAt (c :: cs) with
    | none =>
      rw [rwFull_cons_none fsEx cwd dm c cs ht]
      have h2 : tryLoadAt ((l ++ [c]) ++ cs) = none := by
        simpa [List.append_assoc] using h
      have h3 := ih (l ++ [c]) h2
      simpa [List.append_assoc] using h3
    | some trip =>
      rcases trip with ⟨pre, cap, rest⟩
      rw [rwFull_match fsEx cwd dm _ pre cap rest ht]
      obtain ⟨qa, qb, hE, hqa, hqb, hcap, hnp⟩ := tryLoadAt_eq_some _ pre cap rest ht
      have h1 : tryLoadAt (l ++ (patChars pre ++ (qa :: (cap ++ [qb, ')'] ++ rest))))
          = none := by
        have := h
        rw [hE] at this
        simpa [List.append_assoc] using this
      have h2 := site_swap l pre qa qb '\'' '\'' cap (newCap fsEx cwd dm cap) rest
        (rwFull fsEx cwd dm rest) hqa hqb hcap hnp (by decide) h1
      rw [scriptReplacement_eq]
      simpa [List.append_assoc] using h2

/-- Idempotence of the script-load rewrite, under the two premises that the
source establishes before calling it: every mapped install directory exists
on disk, and the map's values are clean relative paths. -/
lemma rwFull_idem (hT : depMapTargetsExist fsEx cwd dm)
    (hV : depMapValuesClean dm) :
    ∀ (n : Nat) (cs : List Char), cs.length ≤ n →
      rwFull fsEx cwd dm (rwFull fsEx cwd dm cs) = rwFull fsEx cwd dm cs := by
  intro n
  induction n with
  | zero =>
    intro cs h
    have hc : cs = [] := List.length_eq_zero.mp (Nat.le_zero.mp h)
    subst hc
    rfl
  | succ n ih =>
    intro cs h
    cases cs with
    | nil => rfl
    | cons c cs =>
      cases ht : tryLoadAt (c :: cs) with
      | none =>
        rw [rwFull_cons_none fsEx cwd dm c cs ht]
        have hnone2 : tryLoadAt ([c] ++ rwFull fsEx cwd dm cs) = none := by
          apply tryLoadAt_gap fsEx cwd dm cs [c]
          simpa using ht
        have hnone3 : tryLoadAt (c :: rwFull fsEx cwd dm cs) = none := by
          simpa using hnone2
        rw [rwFull_cons_none fsEx cwd dm c _ hnone3]
        congr 1
        apply ih
        simp only [List.length_cons] at h
        omega
      | some trip =>
        rcases trip with ⟨pre, cap, rest⟩
        rw [rwFull_match fsEx cwd dm _ pre cap rest ht]
        obtain ⟨qa, qb, hE, hqa, hqb, hcap, hnp⟩ :=
          tryLoadAt_eq_some _ pre cap rest ht
        have hsite : tryLoadAt (scriptReplacement fsEx cwd dm pre cap
            ++ rwFull fsEx cwd dm rest)
            = some (pre, newCap fsEx cwd dm cap, rwFull fsEx cwd dm rest) := by
          rw [scriptReplacement_eq]
          have := tryLoadAt_at_site pre '\'' '\'' (newCap fsEx cwd dm cap)
            (rwFull fsEx cwd dm rest) (by decide) (by decide)
            (newCap_ne_nil fsEx cwd dm cap hcap)
            (newCap_no_paren fsEx cwd dm hV cap hnp)
          rw [← this]
          congr 1
          simp [List.append_assoc]
        rw [rwFull_match fsEx cwd dm _ pre (newCap fsEx cwd dm cap)
          (rwFull fsEx cwd dm rest) hsite]
        rw [newCap_stable fsEx cwd dm hT hV pre cap]
        congr 1
        apply ih
        have hrl := tryLoadAt_rest_length (c :: cs) pre cap rest ht
        simp only [List.length_cons] at hrl h
        omega

end StabilityLemmas

lemma tresBody_eq_some (xs cap tail : List Char)
    (h : tresBody xs = some (cap, tail)) :
    xs = cap ++ '"' :: tail ∧ cap ≠ [] ∧ '"' ∉ cap := by
  unfold tresBody at h
  split at h
  · rename_i tail0 heq
    split at h
    · cases h
    · rename_i hne
      injection h with h
      injection h with hcap htail
      subst hcap
      subst htail
      refine ⟨?_, ?_, ?_⟩
      · conv_lhs => rw [← List.takeWhile_append_dropWhile (fun c => decide (c ≠ '"')) xs]
        rw [heq]
      · intro hc
        rw [hc] at hne
        simp at hne
      · intro hc
        have := mem_of_mem_takeWhile _ xs '"' hc
        simp at this
  · cases h

lemma tryTresAt_eq_some (cs cap rest : List Char)
    (h : tryTresAt cs = some (cap, rest)) :
    cs = tresPat ++ cap ++ '"' :: rest ∧ cap ≠ [] ∧ '"' ∉ cap := by
  unfold tryTresAt at h
  split at h
  · rename_i hpre
    obtain ⟨t, ht⟩ : ∃ t, cs = tresPat ++ t := by
      have := List.isPrefixOf_iff_prefix.mp hpre
      exact this.imp (fun t h => h.symm)
    have hdrop : cs.drop 20 = t := by
      rw [ht, show (20 : Nat) = tresPat.length from rfl, List.drop_left]
    rw [hdrop] at h
    obtain ⟨hxs, hne, hnq⟩ := tresBody_eq_some t cap rest h
    exact ⟨by rw [ht, hxs]; simp, hne, hnq⟩
  · cases h

lemma tryTresAt_at_site (cap w : List Char) (hcap : cap ≠ []) (hq : '"' ∉ cap) :
    tryTresAt (tresPat ++ (cap ++ '"' :: w)) = some (cap, w) := by
  have hall : ∀ x ∈ cap, (fun c => decide (c ≠ '"')) x = true := by
    intro x hx
    simp only [decide_eq_true_eq]
    intro hc
    exact hq (hc ▸ hx)
  have hdw : (cap ++ '"' :: w).dropWhile (fun c => decide (c ≠ '"')) = '"' :: w := by
    rw [dropWhile_append_all _ cap _ hall]
    simp [List.dropWhile_cons]
  have htw : (cap ++ '"' :: w).takeWhile (fun c => decide (c ≠ '"')) = cap := by
    rw [takeWhile_append_all _ cap _ hall]
    simp [List.takeWhile_cons]
  unfold tryTresAt
  rw [isPrefixOf_append_self tresPat (cap ++ '"' :: w)]
  simp only [if_true]
  rw [show (20 : Nat) = tresPat.length from rfl, List.drop_left]
  unfold tresBody
  rw [hdw]
  split
  · rename_i tail heq
    injection heq with _ htail
    rw [htw, if_neg (by simpa using hcap), htail]
  · rename_i hne
    exact absurd rfl (hne w)

lemma tryTresAt_nil : tryTresAt [] = none := by decide

lemma tryTresAt_rest_length (cs cap rest : List Char)
    (h : tryTresAt cs = some (cap, rest)) : rest.length + 22 ≤ cs.length := by
  obtain ⟨hcs, hne, _⟩ := tryTresAt_eq_some cs cap rest h
  have hcap : 1 ≤ cap.length := List.length_pos.mpr hne
  rw [hcs]
  simp [List.length_append, tresPat]
  omega

section TresRwLemmas

variable (fsEx : List PComp → Bool) (cwd : List PComp) (dm : List (String × String))

lemma rwTres_fuel_irrel :
    ∀ (f1 : Nat) (cs : List Char) (f2 : Nat), cs.length ≤ f1 → cs.length ≤ f2 →
      rwTres fsEx cwd dm f1 cs = rwTres fsEx cwd dm f2 cs := by
  intro f1
  induction f1 with
  | zero =>
    intro cs f2 h1 _
    have hcs : cs = [] := List.length_eq_zero.mp (Nat.le_zero.mp h1)
    subst hcs
    cases f2 <;> rfl
  | succ f1 ih =>
    intro cs f2 h1 h2
    cases cs with
    | nil => cases f2 <;> rfl
    | cons c cs =>
      cases f2 with
      | zero => simp at h2
      | succ g =>
        show (match tryTresAt (c :: cs) with
          | some (cap, rest) =>
            match tresReplacement fsEx cwd dm cap with
            | none => none
            | some repl => (rwTres fsEx cwd dm f1 rest).map (fun t => repl ++ t)
          | none => (rwTres fsEx cwd dm f1 cs).map (fun t => c :: t))
          = (match tryTresAt (c :: cs) with
          | some (cap, rest) =>
            match tresReplacement fsEx cwd dm cap with
            | none => none
            | some repl => (rwTres fsEx cwd dm g rest).map (fun t => repl ++ t)
          | none => (rwTres fsEx cwd dm g cs).map (fun t => c :: t))
        cases ht : tryTresAt (c :: cs) with
        | none =>
          dsimp only
          have hlen : cs.length ≤ f1 := by
            simp only [List.length_cons] at h1
            omega
          have hlen2 : cs.length ≤ g := by
            simp only [List.length_cons] at h2
            omega
          rw [ih cs g hlen hlen2]
        | some pr =>
          rcases pr with ⟨cap, rest⟩
          dsimp only
          cases tresReplacement fsEx cwd dm cap with
          | none => rfl
          | some repl =>
            have hrl := tryTresAt_rest_length (c :: cs) cap rest ht
            simp only [List.length_cons] at h1 h2 hrl
            have hlen : rest.length ≤ f1 := by omega
            have hlen2 : rest.length ≤ g := by omega
            rw [ih rest g hlen hlen2]

lemma rwTresFull_nil : rwTresFull fsEx cwd dm [] = some [] := rfl

lemma rwTresFull_cons_none (c : Char) (cs : List Char)
    (h : tryTresAt (c :: cs) = none) :
    rwTresFull fsEx cwd dm (c :: cs)
      = (rwTresFull fsEx cwd dm cs).map (fun t => c :: t) := by
  show (match tryTresAt (c :: cs) with
    | some (cap, rest) =>
      match tresReplacement fsEx cwd dm cap with
      | none => none
      | some repl => (rwTres fsEx cwd dm cs.length rest).map (fun t => repl ++ t)
    | none => (rwTres fsEx cwd dm cs.length cs).map (fun t => c :: t)) = _
  rw [h]
  dsimp only
  rfl

lemma rwTresFull_match_none (xs : List Char) (cap rest : List Char)
    (ht : tryTresAt xs = some (cap, rest))
    (hrep : tresReplacement fsEx cwd dm cap = none) :
    rwTresFull fsEx cwd dm xs = none := by
  cases xs with
  | nil => rw [tryTresAt_nil] at ht; cases ht
  | cons c cs =>
    show (match tryTresAt (c :: cs) with
      | some (cap, rest) =>
        match tresReplacement fsEx cwd dm cap with
        | none => none
        | some repl => (rwTres fsEx cwd dm cs.length rest).map (fun t => repl ++ t)
      | none => (rwTres fsEx cwd dm cs.length cs).map (fun t => c :: t)) = none
    rw [ht]
    dsimp only
    rw [hrep]

lemma rwTresFull_match_some (xs : List Char) (cap rest repl : List Char)
    (ht : tryTresAt xs = some (cap, rest))
    (hrep : tresReplacement fsEx cwd dm cap = some repl) :
    rwTresFull fsEx cwd dm xs
      = (rwTresFull fsEx cwd dm rest).map (fun t => repl ++ t) := by
  cases xs with
  | nil => rw [tryTresAt_nil] at ht; cases ht
  | cons c cs =>
    show (match tryTresAt (c :: cs) with
      | some (cap, rest) =>
        match tresReplacement fsEx cwd dm cap with
        | none => none
        | some repl => (rwTres fsEx cwd dm cs.length rest).map (fun t => repl ++ t)
      | none => (rwTres fsEx cwd dm cs.length cs).map (fun t => c :: t)) = _
    rw [ht]
    dsimp only
    rw [hrep]
    dsimp only
    have hrl := tryTresAt_rest_length (c :: cs) cap rest ht
    simp only [List.length_cons] at hrl
    rw [rwTres_fuel_irrel fsEx cwd dm cs.length rest rest.length (by omega) (le_refl _)]
    rfl

end TresRwLemmas

lemma tresBody_head_ne (xs : List Char) (d : Char) (t : List Char)
    (hx : xs = d :: t) (h : (tresBody xs).isSome = true) : d ≠ '"' := by
  subst hx
  intro hd
  subst hd
  have hdw : ('"' :: t).dropWhile (fun c => decide (c ≠ '"')) = '"' :: t := by
    simp [List.dropWhile_cons]
  have htw : ('"' :: t).takeWhile (fun c => decide (c ≠ '"')) = [] := by
    simp [List.takeWhile_cons]
  unfold tresBody at h
  rw [hdw] at h
  split at h
  · rw [htw] at h
    simp at h
  · simp at h

lemma tresBody_some_of_head (xs : List Char) (hmem : '"' ∈ xs) (d : Char)
    (t : List Char) (hx : xs = d :: t) (hd : d ≠ '"') :
    (tresBody xs).isSome = true := by
  have hne : xs.dropWhile (fun c => decide (c ≠ '"')) ≠ [] := by
    rw [ne_eq, List.dropWhile_eq_nil_iff]
    push_neg
    exact ⟨'"', hmem, by simp⟩
  obtain ⟨a, tail, hdw⟩ : ∃ a tail,
      xs.dropWhile (fun c => decide (c ≠ '"')) = a :: tail := by
    cases hd2 : xs.dropWhile (fun c => decide (c ≠ '"')) with
    | nil => exact absurd hd2 hne
    | cons a tail => exact ⟨a, tail, rfl⟩
  have ha : a = '"' := by
    have := head_dropWhile_false _ xs a tail hdw
    simpa using this
  subst ha
  unfold tresBody
  rw [hdw]
  split
  · rename_i tail2 heq
    have htwne : xs.takeWhile (fun c => decide (c ≠ '"')) ≠ [] := by
      rw [hx, List.takeWhile_cons, if_pos (by simpa using hd)]
      simp
    rw [if_neg (by simpa using htwne)]
    rfl
  · rename_i hne2
    exact absurd rfl (hne2 tail)

/-- The text-resource analogue of `site_swap`: a no-match at the head of a
gap followed by one canonical `ext_resource` site transfers to any other
site text in the same position. -/
lemma site_swap_tres (l : List Char) (c1 c2 T1 T2 : List Char)
    (hc1 : c1 ≠ []) (hq1 : '"' ∉ c1)
    (hnone : tryTresAt (l ++ (tresPat ++ (c1 ++ '"' :: T1))) = none) :
    tryTresAt (l ++ (tresPat ++ (c2 ++ '"' :: T2))) = none := by
  cases l with
  | nil =>
    exfalso
    rw [List.nil_append, tryTresAt_at_site c1 T1 hc1 hq1] at hnone
    cases hnone
  | cons l0 ls =>
    cases hB : tryTresAt ((l0 :: ls) ++ (tresPat ++ (c2 ++ '"' :: T2))) with
    | none => rfl
    | some pr =>
      exfalso
      have hpre : tresPat.isPrefixOf
          ((l0 :: ls) ++ (tresPat ++ (c2 ++ '"' :: T2))) = true := by
        by_contra hq
        rw [Bool.not_eq_true] at hq
        unfold tryTresAt at hB
        rw [hq] at hB
        simp at hB
      have hb2 : tresBody (((l0 :: ls) ++ (tresPat ++ (c2 ++ '"' :: T2))).drop 20)
          = some pr := by
        unfold tryTresAt at hB
        rw [hpre] at hB
        simpa using hB
      -- The transfer argument for an aligned pattern head.
      have transfer : ∀ l', l0 :: ls = tresPat ++ l' → False := by
        intro l' hl'
        have hdrop2 : ((l0 :: ls) ++ (tresPat ++ (c2 ++ '"' :: T2))).drop 20
            = l' ++ (tresPat ++ (c2 ++ '"' :: T2)) := by
          rw [hl', List.append_assoc,
            show (20 : Nat) = tresPat.length from rfl, List.drop_left]
        rw [hdrop2] at hb2
        have hmem1 : '"' ∈ l' ++ (tresPat ++ (c1 ++ '"' :: T1)) :=
          List.mem_append.mpr (Or.inr (List.mem_append.mpr (Or.inl (by decide))))
        have hb1 : (tresBody (l' ++ (tresPat ++ (c1 ++ '"' :: T1)))).isSome
            = true := by
          cases l' with
          | nil => exact tresBody_some_of_head _ hmem1 '[' _ rfl (by decide)
          | cons d' t'' =>
            have hne : d' ≠ '"' :=
              tresBody_head_ne ((d' :: t'') ++ (tresPat ++ (c2 ++ '"' :: T2)))
                d' _ rfl (by rw [hb2]; rfl)
            exact tresBody_some_of_head _ hmem1 d' _ rfl hne
        have hsome : tryTresAt ((l0 :: ls) ++ (tresPat ++ (c1 ++ '"' :: T1)))
            ≠ none := by
          unfold tryTresAt
          have hpre1 : tresPat.isPrefixOf
              ((l0 :: ls) ++ (tresPat ++ (c1 ++ '"' :: T1))) = true := by
            rw [hl', List.append_assoc]
            exact isPrefixOf_append_self tresPat _
          rw [hpre1]
          simp only [if_true]
          have hdrop1 : ((l0 :: ls) ++ (tresPat ++ (c1 ++ '"' :: T1))).drop 20
              = l' ++ (tresPat ++ (c1 ++ '"' :: T1)) := by
            rw [hl', List.append_assoc,
              show (20 : Nat) = tresPat.length from rfl, List.drop_left]
          rw [hdrop1]
          exact Option.isSome_iff_ne_none.mp hb1
        exact hsome hnone
      have hpre2 := List.isPrefixOf_iff_prefix.mp hpre
      have hlpre : (l0 :: ls) <+: ((l0 :: ls) ++ (tresPat ++ (c2 ++ '"' :: T2))) :=
        ⟨_, rfl⟩
      rcases List.prefix_or_prefix_of_prefix hpre2 hlpre with hA | hA
      · obtain ⟨l', hl'⟩ := hA
        exact transfer l' hl'.symm
      · obtain ⟨t, ht⟩ := hA
        cases t with
        | nil => exact transfer [] (by simpa using ht)
        | cons d t' =>
          -- the pattern head would overlap itself with a positive shift
          have hd : d = '[' := by
            obtain ⟨w, hw⟩ := hpre2
            rw [← ht] at hw
            simp only [List.append_assoc] at hw
            have hcancel := List.append_cancel_left hw
            have hh := congrArg List.head? hcancel
            simp at hh
            have hl0 : l0 = '[' := by
              have h2 := congrArg List.head? ht
              simp [tresPat] at h2
              exact h2
            rw [hl0] at hh
            first
            | exact hh
            | exact hh.symm
          have hmem : d ∈ tresPat.drop 1 := by
            have hdrop := congrArg (fun xs => List.drop 1 xs) ht
            simp only [List.cons_append, List.drop_succ_cons, List.drop_zero] at hdrop
            rw [← hdrop]
            simp
          rw [hd] at hmem
          have : '[' ∉ tresPat.drop 1 := by decide
          exact this hmem

/-- Counterexample to C4 as stated: the rewrite is not idempotent for every
input.  With nothing on disk and a dependency map that contains both an
alias `b ↦ x/y` and an alias `y ↦ z`, the first pass rewrites
`load("a/b")` to `load('res://x/y')`, and a second pass rewrites that
result again (through the `y` alias) to `load('res://z')`. -/
theorem script_rewrite_not_idempotent :
    modify_script_loads (fun _ => false) [] [("b", "x/y"), ("y", "z")]
        (modify_script_loads (fun _ => false) [] [("b", "x/y"), ("y", "z")]
          "load(\"a/b\")")
      ≠ modify_script_loads (fun _ => false) [] [("b", "x/y"), ("y", "z")]
          "load(\"a/b\")" := by
  decide

section TresStability

variable (fsEx : List PComp → Bool) (cwd : List PComp) (dm : List (String × String))

lemma modify_load_stable (hT : depMapTargetsExist fsEx cwd dm)
    (stripped : List PComp) :
    modify_load fsEx (modify_load fsEx stripped cwd dm) cwd dm
      = modify_load fsEx stripped cwd dm := by
  rcases modify_load_cases fsEx cwd dm stripped with heq | ⟨c1, v, _, hlk, heq⟩
  · rw [heq]
    exact heq
  · rw [heq]
    have hc := hT c1.osStr v hlk (stripped.drop 2)
    simp [modify_load, hc]

lemma modify_load_good_of_strip (hV : depMapValuesClean dm)
    (cap : List Char) (stripped : List PComp)
    (hsr : stripResComps (componentsOf cap) = some stripped) :
    ∀ c ∈ modify_load fsEx stripped cwd dm, goodComp c := by
  have hstr_drop : ∀ c ∈ stripped, c ∈ (componentsOf cap).drop 1 := by
    intro c hc
    rw [stripResComps_eq_some _ _ hsr]
    simpa using hc
  rcases modify_load_cases fsEx cwd dm stripped with heq | ⟨c1, v, _, hlk, heq⟩
  · rw [heq]
    intro c hc
    exact componentsOf_drop_good cap c (hstr_drop c hc)
  · rw [heq]
    intro c hc
    rcases List.mem_append.mp hc with hc | hc
    · have hnorm := (hV _ v hlk).1 c hc
      cases c with
      | normal n =>
        obtain ⟨h1, h2, h3, h4⟩ := componentsOf_normal_shape v.data _ hc n rfl
        exact Or.inr ⟨n, rfl, h1, h2, h3, h4⟩
      | rootDir => cases hnorm
      | curDir => cases hnorm
      | parentDir => cases hnorm
      | winPrefix => cases hnorm
    · exact componentsOf_drop_good cap c
        (hstr_drop c (List.mem_of_mem_drop hc))

lemma tresReplacement_eq_some (cap repl : List Char)
    (h : tresReplacement fsEx cwd dm cap = some repl) :
    ∃ stripped, stripResComps (componentsOf cap) = some stripped ∧
      repl = tresPat ++ (newCapT fsEx cwd dm cap ++ ['"']) := by
  simp only [tresReplacement] at h
  cases hsr : stripResComps (componentsOf cap) with
  | none => rw [hsr] at h; cases h
  | some stripped =>
    rw [hsr] at h
    dsimp only at h
    injection h with h
    refine ⟨stripped, rfl, ?_⟩
    rw [← h]
    simp only [newCapT]
    rw [hsr]
    dsimp only
    by_cases hres : modify_load fsEx stripped cwd dm = componentsOf cap
    · rw [if_pos hres, if_pos hres]
      simp [List.append_assoc]
    · rw [if_neg hres, if_neg hres]
      simp [List.append_assoc]

lemma newCapT_ne_nil (cap : List Char) (hcap : cap ≠ []) :
    newCapT fsEx cwd dm cap ≠ [] := by
  unfold newCapT
  cases hsr : stripResComps (componentsOf cap) with
  | none => exact hcap
  | some stripped =>
    dsimp only
    split
    · exact hcap
    · simp

lemma newCapT_no_quote (hV : depMapValuesClean dm) (cap : List Char)
    (hq : '"' ∉ cap) : '"' ∉ newCapT fsEx cwd dm cap := by
  unfold newCapT
  cases hsr : stripResComps (componentsOf cap) with
  | none => exact hq
  | some stripped =>
    dsimp only
    split
    · exact hq
    · intro hm
      rcases List.mem_append.mp hm with hm | hm
      · simp at hm
      · have hstr : ∀ c ∈ stripped, compNoChar '"' c := by
          intro c hc
          exact componentsOf_chars cap '"' hq c (by
            rw [stripResComps_eq_some _ stripped hsr]
            exact List.mem_cons_of_mem _ hc)
        have := renderComps_no_char '"' (by decide) (by decide) _
          (modify_load_no_char fsEx cwd dm '"'
            (fun k v hlk => (hV k v hlk).2.2) _ hstr)
        exact this hm

/-- Stability of the text-resource replacement: applied to the capture it
just emitted, the closure emits the same site text again (and in
particular does not panic). -/
lemma newCapT_stable (hT : depMapTargetsExist fsEx cwd dm)
    (hV : depMapValuesClean dm) (cap : List Char) (stripped : List PComp)
    (hsr : stripResComps (componentsOf cap) = some stripped) :
    tresReplacement fsEx cwd dm (newCapT fsEx cwd dm cap)
      = some (tresPat ++ (newCapT fsEx cwd dm cap ++ ['"'])) := by
  have hnct : newCapT fsEx cwd dm cap
      = (if modify_load fsEx stripped cwd dm = componentsOf cap then cap
         else ['r', 'e', 's', ':', '/', '/']
           ++ renderComps (modify_load fsEx stripped cwd dm)) := by
    simp only [newCapT]
    rw [hsr]
  by_cases hres : modify_load fsEx stripped cwd dm = componentsOf cap
  · have hc : newCapT fsEx cwd dm cap = cap := by rw [hnct, if_pos hres]
    rw [hc]
    simp only [tresReplacement]
    rw [hsr]
    dsimp only
    rw [if_pos hres]
    simp [List.append_assoc]
  · have hc : newCapT fsEx cwd dm cap
        = ['r', 'e', 's', ':', '/', '/']
          ++ renderComps (modify_load fsEx stripped cwd dm) := by
      rw [hnct, if_neg hres]
    have hgood := modify_load_good_of_strip fsEx cwd dm hV cap stripped hsr
    have hreparse : componentsOf (newCapT fsEx cwd dm cap)
        = resComp :: modify_load fsEx stripped cwd dm := by
      rw [hc]
      exact componentsOf_res_render _ hgood
    simp only [tresReplacement]
    rw [hreparse]
    rw [show stripResComps (resComp :: modify_load fsEx stripped cwd dm)
        = some (modify_load fsEx stripped cwd dm) by simp [stripResComps]]
    dsimp only
    rw [modify_load_stable fsEx cwd dm hT stripped]
    rw [if_neg (fun hx =>
      (List.cons_ne_self resComp (modify_load fsEx stripped cwd dm)) hx.symm)]
    rw [hc]
    simp [List.append_assoc]

/-- The text-resource no-match transfer through a rewrite of the tail. -/
lemma tryTresAt_gap :
    ∀ (cs l u : List Char), tryTresAt (l ++ cs) = none →
      rwTresFull fsEx cwd dm cs = some u → tryTresAt (l ++ u) = none := by
  intro cs
  induction cs with
  | nil =>
    intro l u h hr
    have : u = [] := by
      rw [rwTresFull_nil] at hr
      injection hr with hr
      exact hr.symm
    subst this
    exact h
  | cons c cs ih =>
    intro l u h hr
    cases ht : tryTresAt (c :: cs) with
    | none =>
      rw [rwTresFull_cons_none fsEx cwd dm c cs ht] at hr
      rcases Option.map_eq_some'.mp hr with ⟨u', hu', hmap⟩
      subst hmap
      have h2 : tryTresAt ((l ++ [c]) ++ cs) = none := by
        simpa [List.append_assoc] using h
      have h3 := ih (l ++ [c]) u' h2 hu'
      simpa [List.append_assoc] using h3
    | some pr =>
      rcases pr with ⟨cap, rest⟩
      cases hrep : tresReplacement fsEx cwd dm cap with
      | none =>
        rw [rwTresFull_match_none fsEx cwd dm _ cap rest ht hrep] at hr
        cases hr
      | some repl =>
        rw [rwTresFull_match_some fsEx cwd dm _ cap rest repl ht hrep] at hr
        rcases Option.map_eq_some'.mp hr with ⟨u', hu', hmap⟩
        subst hmap
        obtain ⟨hcs, hcap, hnq⟩ := tryTresAt_eq_some _ cap rest ht
        obtain ⟨stripped, hsr, hrepl⟩ :=
          tresReplacement_eq_some fsEx cwd dm cap repl hrep
        have h1 : tryTresAt (l ++ (tresPat ++ (cap ++ '"' :: rest))) = none := by
          have := h
          rw [hcs] at this
          simpa [List.append_assoc] using this
        have h2 := site_swap_tres l cap (newCapT fsEx cwd dm cap) rest u'
          hcap hnq h1
        rw [hrepl]
        simpa [List.append_assoc] using h2

/-- Idempotence of the text-resource rewrite: a successful rewrite is a
fixed point of the rewriter. -/
lemma rwTresFull_idem (hT : depMapTargetsExist fsEx cwd dm)
    (hV : depMapValuesClean dm) :
    ∀ (n : Nat) (cs u : List Char), cs.length ≤ n →
      rwTresFull fsEx cwd dm cs = some u →
      rwTresFull fsEx cwd dm u = some u := by
  intro n
  induction n with
  | zero =>
    intro cs u h hr
    have hc : cs = [] := List.length_eq_zero.mp (Nat.le_zero.mp h)
    subst hc
    rw [rwTresFull_nil] at hr
    injection hr with hr
    subst hr
    rfl
  | succ n ih =>
    intro cs u h hr
    cases cs with
    | nil =>
      rw [rwTresFull_nil] at hr
      injection hr with hr
      subst hr
      rfl
    | cons c cs =>
      cases ht : tryTresAt (c :: cs) with
      | none =>
        rw [rwTresFull_cons_none fsEx cwd dm c cs ht] at hr
        rcases Option.map_eq_some'.mp hr with ⟨u', hu', hmap⟩
        subst hmap
        have hnone2 : tryTresAt ([c] ++ u') = none := by
          apply tryTresAt_gap fsEx cwd dm cs [c] u' (by simpa using ht) hu'
        have hnone3 : tryTresAt (c :: u') = none := by simpa using hnone2
        rw [rwTresFull_cons_none fsEx cwd dm c u' hnone3]
        rw [ih cs u' (by simp only [List.length_cons] at h; omega) hu']
        rfl
      | some pr =>
        rcases pr with ⟨cap, rest⟩
        cases hrep : tresReplacement fsEx cwd dm cap with
        | none =>
          rw [rwTresFull_match_none fsEx cwd dm _ cap rest ht hrep] at hr
          cases hr
        | some repl =>
          rw [rwTresFull_match_some fsEx cwd dm _ cap rest repl ht hrep] at hr
          rcases Option.map_eq_some'.mp hr with ⟨u', hu', hmap⟩
          subst hmap
          obtain ⟨hcs, hcap, hnq⟩ := tryTresAt_eq_some _ cap rest ht
          obtain ⟨stripped, hsr, hrepl⟩ :=
            tresReplacement_eq_some fsEx cwd dm cap repl hrep
          have hsite : tryTresAt (repl ++ u')
              = some (newCapT fsEx cwd dm cap, u') := by
            rw [hrepl]
            have := tryTresAt_at_site (newCapT fsEx cwd dm cap) u'
              (newCapT_ne_nil fsEx cwd dm cap hcap)
              (newCapT_no_quote fsEx cwd dm hV cap hnq)
            rw [← this]
            congr 1
            simp [List.append_assoc]
          have hstab := newCapT_stable fsEx cwd dm hT hV cap stripped hsr
          rw [← hrepl] at hstab
          rw [rwTresFull_match_some fsEx cwd dm _ (newCapT fsEx cwd dm cap) u'
            repl hsite hstab]
          have hrl := tryTresAt_rest_length (c :: cs) cap rest ht
          simp only [List.length_cons] at hrl h
          rw [ih rest u' (by omega) hu']
          rfl

end TresStability

/-- C4 (amended): the load-path rewrite is deterministic and idempotent on
every input text, for both the GDScript `load`/`preload` rewriter and the
text-resource `ext_resource` rewriter, provided the state the installer
establishes before rewriting holds: every install directory recorded in
the dependency map exists on disk (so the step-2 short-circuit fires on
already-rewritten references), and the map's values are clean relative
paths.  Without the first premise the rewrite can move a path twice (see
the double-mapping counterexample). -/
theorem rewrite_idempotent_for_installed_deps
    (fsEx : List PComp → Bool) (cwd : List PComp) (dm : List (String × String))
    (hT : depMapTargetsExist fsEx cwd dm) (hV : depMapValuesClean dm) :
    (∀ t : String,
      modify_script_loads fsEx cwd dm (modify_script_loads fsEx cwd dm t)
        = modify_script_loads fsEx cwd dm t) ∧
    (∀ t u : String, modify_tres_loads fsEx cwd dm t = some u →
      modify_tres_loads fsEx cwd dm u = some u) := by
  constructor
  · intro t
    unfold modify_script_loads
    congr 1
    show rwFull fsEx cwd dm (rwFull fsEx cwd dm t.data) = rwFull fsEx cwd dm t.data
    exact rwFull_idem fsEx cwd dm hT hV t.data.length t.data (le_refl _)
  · intro t u h
    unfold modify_tres_loads at h ⊢
    rcases Option.map_eq_some'.mp h with ⟨cs, hcs, hmk⟩
    subst hmk
    have hidem := rwTresFull_idem fsEx cwd dm hT hV t.data.length t.data cs
      (le_refl _) hcs
    show (rwTresFull fsEx cwd dm cs).map (fun cs => (⟨cs⟩ : String)) = _
    rw [hidem]
    rfl

/-- Witness for C4 at the spec's scenario state: with the mapped install
directory present on disk (`fsEx` answers true), rewriting
`load('res://addons/gdcli/Parser.gd')` twice equals rewriting it once. -/
theorem rewrite_idempotent_for_installed_deps_witness :
    modify_script_loads (fun _ => true) [] [("gdcli", "addons/x")]
        (modify_script_loads (fun _ => true) [] [("gdcli", "addons/x")]
          "load('res://addons/gdcli/Parser.gd')")
      = modify_script_loads (fun _ => true) [] [("gdcli", "addons/x")]
          "load('res://addons/gdcli/Parser.gd')" :=
  (rewrite_idempotent_for_installed_deps (fun _ => true) [] [("gdcli", "addons/x")]
    (by intro k v hlk rest; rfl)
    (by
      intro k v hlk
      by_cases hk : k = "gdcli"
      · subst hk
        simp [List.lookup] at hlk
        subst hlk
        exact ⟨by decide, by decide, by decide⟩
      · have hbeq : (k == "gdcli") = false := beq_eq_false_iff_ne.mpr hk
        rw [List.lookup, hbeq] at hlk
        simp at hlk)).1
    "load('res://addons/gdcli/Parser.gd')"

/-- C6: `lock` emits exactly one entry per currently-installed collected
package, sorted ascending by `(name, version)`; each entry consists of the
`name`, `version` and `tarball` fields of its package, and a `LockEntry`
has no digest or dependency fields at all. -/
theorem lock_sorted_one_entry_per_installed (pkgs : List LPkg) :
    List.Sorted entryLe (lock pkgs) ∧
    (lock pkgs).Perm ((pkgs.filter (fun p => p.installed)).map prepare_lock) ∧
    ∀ e ∈ lock pkgs, ∃ p ∈ pkgs, p.installed = true ∧
      e = ⟨p.name, p.version, p.tarball⟩ := by
  refine ⟨List.sorted_insertionSort entryLe _, List.perm_insertionSort entryLe _, ?_⟩
  intro e he
  have hmem : e ∈ (pkgs.filter (fun p => p.installed)).map prepare_lock :=
    (List.perm_insertionSort entryLe _).mem_iff.mp he
  rcases List.mem_map.mp hmem with ⟨p, hp, rfl⟩
  rw [List.mem_filter] at hp
  exact ⟨p, hp.1, by simpa using hp.2, rfl⟩

end Gpm
